import Mathlib

/-!
Verification of `jianying-editor-skill/scripts/auto_edit_gemini_cli.py`.

Strings are modelled as `List Char`.  Python's numeric tower is modelled
exactly: `int` as `Int`/`Nat`, `float` arithmetic as exact rational (`ℚ`)
arithmetic (the source only adds/scales/rounds millisecond quantities).
`json.loads` is an external library call; the extractor is modelled down to
the exact character span(s) it hands to `json.loads`, and JSON values that
cross the boundary are modelled by the inductive type `Json` below together
with its (canonical, escaping) serialization.
-/

namespace AutoEdit

/-! ### Python-style string utilities -/

/-- Whitespace characters recognized by Python's `str.strip`
(space, tab, newline, carriage return, vertical tab, form feed). -/
def isPySpace (c : Char) : Bool :=
  c = ' ' || c = '\t' || c = '\n' || c = '\r' || c = Char.ofNat 11 || c = Char.ofNat 12

/-- Python `str.lstrip()`. -/
def pyLStrip (l : List Char) : List Char := l.dropWhile isPySpace

/-- Python `str.strip()`. -/
def pyStrip (l : List Char) : List Char :=
  ((l.dropWhile isPySpace).reverse.dropWhile isPySpace).reverse

/-- Python `str.split(sep)` for a single-character separator. -/
def splitChar (sep : Char) : List Char → List (List Char)
  | [] => [[]]
  | c :: cs =>
    if c = sep then [] :: splitChar sep cs
    else
      match splitChar sep cs with
      | [] => [[c]]
      | g :: gs => (c :: g) :: gs

/-- Decimal digit character for `d % 10`. -/
def digitChar (d : Nat) : Char := Char.ofNat (48 + d % 10)

/-- Decimal conversion with an explicit digit budget: each step strips one
digit, and a number `n` has at most `n + 1` digits, so the zero-budget
branch is unreachable from `natChars` below. -/
def natCharsGo : Nat → Nat → List Char
  | 0, _ => []
  | fuel + 1, n =>
    if n < 10 then [digitChar n]
    else natCharsGo fuel (n / 10) ++ [digitChar (n % 10)]

/-- Decimal representation of a natural number (no leading zeros). -/
def natChars (n : Nat) : List Char := natCharsGo (n + 1) n

/-- Decimal representation of an integer (Python `str(int)`). -/
def intChars (n : Int) : List Char :=
  if n < 0 then '-' :: natChars n.natAbs else natChars n.toNat

/-- Value of a list of decimal digit characters. -/
def digitsToNat (l : List Char) : Nat :=
  l.foldl (fun a c => 10 * a + (c.toNat - 48)) 0

def isDigitChar (c : Char) : Bool := 48 ≤ c.toNat && c.toNat ≤ 57

/-- Zero-padding on the left to width `w` (Python `f"{n:0wd}"` for nonnegative `n`). -/
def padZero (w : Nat) (l : List Char) : List Char :=
  List.replicate (w - l.length) '0' ++ l

/-! ### A model of JSON values

`Json` models the values that cross the `json.loads`/`json.dumps` boundary.
`serialize` is the canonical text form: strings escape `"` and `\` with a
backslash and keep every other character verbatim, arrays and objects use
`[`/`]` and `{`/`}` with `,` and `:` separators and no extra whitespace. -/

mutual

inductive Json where
  | jnull : Json
  | jbool : Bool → Json
  | jnum : Int → Json
  | jstr : List Char → Json
  | jarr : JsonArr → Json
  | jobj : JsonObj → Json

inductive JsonArr where
  | anil : JsonArr
  | acons : Json → JsonArr → JsonArr

inductive JsonObj where
  | onil : JsonObj
  | ocons : List Char → Json → JsonObj → JsonObj

end

/-- JSON string escaping of one character: `"` and `\` get a backslash. -/
def escChar (c : Char) : List Char :=
  if c = '"' || c = '\\' then ['\\', c] else [c]

/-- JSON string escaping (body of a string literal). -/
def escString (s : List Char) : List Char :=
  s.foldr (fun c acc => escChar c ++ acc) []

/-- A JSON string literal: `"` body `"`. -/
def serializeString (s : List Char) : List Char :=
  '"' :: escString s ++ ['"']

mutual

def serialize : Json → List Char
  | .jnull => ['n', 'u', 'l', 'l']
  | .jbool true => ['t', 'r', 'u', 'e']
  | .jbool false => ['f', 'a', 'l', 's', 'e']
  | .jnum n => intChars n
  | .jstr s => serializeString s
  | .jarr xs => '[' :: (serializeArr xs ++ [']'])
  | .jobj fs => '{' :: (serializeObj fs ++ ['}'])

def serializeArr : JsonArr → List Char
  | .anil => []
  | .acons x .anil => serialize x
  | .acons x (.acons y rest) => serialize x ++ ',' :: serializeArr (.acons y rest)

def serializeObj : JsonObj → List Char
  | .onil => []
  | .ocons k v .onil => serializeString k ++ ':' :: serialize v
  | .ocons k v (.ocons k2 v2 rest) =>
      serializeString k ++ ':' :: serialize v ++ ',' :: serializeObj (.ocons k2 v2 rest)

end

/-- The character used for Markdown fences in model responses. -/
def fenceChar : Char := Char.ofNat 96

/-- String contents that make the serialization a legal JSON text
(no control characters) and keep it free of fence characters. -/
def strOk (s : List Char) : Bool :=
  s.all fun c => 32 ≤ c.toNat && c ≠ fenceChar

mutual

/-- Well-formedness of the strings inside a JSON value. -/
def jsonOk : Json → Bool
  | .jstr s => strOk s
  | .jarr xs => jsonOkArr xs
  | .jobj fs => jsonOkObj fs
  | _ => true

def jsonOkArr : JsonArr → Bool
  | .anil => true
  | .acons x rest => jsonOk x && jsonOkArr rest

def jsonOkObj : JsonObj → Bool
  | .onil => true
  | .ocons k v rest => strOk k && jsonOk v && jsonOkObj rest

end

/-- Is the value an array or an object (a value whose text starts with a bracket)? -/
def isContainer : Json → Bool
  | .jarr _ => true
  | .jobj _ => true
  | _ => false

/-! ### The balanced-delimiter scan (`_find_span`, lines 84–127)

`scanFrom cs stack inStr esc i` models the loop
`for i in range(start, len(s))` of `_find_span` positioned at the suffix
`cs` of the text, with the current stack of expected closing characters,
the in-string flag, the escape flag, and the absolute index `i` of the
head of `cs`.  It returns the absolute index at which the stack empties,
or `none` if the loop runs off the end (the `unterminated` failure). -/

def scanFrom : List Char → List Char → Bool → Bool → Nat → Option Nat
  | [], _, _, _, _ => none
  | c :: cs, stack, inStr, esc, i =>
    if inStr then
      if esc then scanFrom cs stack true false (i + 1)
      else if c = '\\' then scanFrom cs stack true true (i + 1)
      else if c = '"' then scanFrom cs stack false false (i + 1)
      else scanFrom cs stack true false (i + 1)
    else if c = '"' then scanFrom cs stack true false (i + 1)
    else if c = '{' then scanFrom cs ('}' :: stack) false false (i + 1)
    else if c = '[' then scanFrom cs (']' :: stack) false false (i + 1)
    else if c = '}' ∨ c = ']' then
      match stack with
      | [] => scanFrom cs [] false false (i + 1)
      | t :: ts =>
        if c = t then
          if ts = [] then some i else scanFrom cs ts false false (i + 1)
        else scanFrom cs (t :: ts) false false (i + 1)
    else scanFrom cs stack false false (i + 1)

/-- Index of the first `{` or `[` (the `start` search of `_find_span`). -/
def findStart : List Char → Option Nat
  | [] => none
  | c :: cs =>
    if c = '{' ∨ c = '[' then some 0
    else (findStart cs).map (· + 1)

/-- `_find_span(s)`: the balanced span `(start, end)` of the first JSON
value, or a typed failure (`no json start bracket found` / `unterminated
json value`). -/
def findSpan (s : List Char) : Except (List Char) (Nat × Nat) :=
  match findStart s with
  | none => .error ("no json start bracket found".toList)
  | some st =>
    match scanFrom (s.drop st) [] false false st with
    | some e => .ok (st, e)
    | none => .error ("unterminated json value".toList)

/-- Python slice `s[a:b]`. -/
def pySlice (s : List Char) (a b : Nat) : List Char :=
  (s.drop a).take (b - a)

/-! ### Markdown-fence handling (`_extract_json_from_text`, lines 70–82) -/

/-- Does the list start with three fence characters? -/
def startsWithFence : List Char → Bool
  | a :: b :: c :: _ => a = fenceChar && b = fenceChar && c = fenceChar
  | _ => false

/-- Does the text contain a triple-fence anywhere? (Python `"..." in text`.) -/
def hasFence : List Char → Bool
  | [] => false
  | c :: rest => startsWithFence (c :: rest) || hasFence rest

/-- Python `text.split(fence)` for the three-character fence,
non-overlapping, leftmost-first. -/
def splitFence : List Char → List (List Char)
  | a :: t@(b :: c :: rest) =>
    if a = fenceChar ∧ b = fenceChar ∧ c = fenceChar then [] :: splitFence rest
    else
      match splitFence t with
      | [] => [[a]]
      | g :: gs => (a :: g) :: gs
  | l => [l]

/-- The chunks at odd indices (Python `chunks[1::2]`, the fenced chunks). -/
def oddIdx : List α → List α
  | [] => []
  | [_] => []
  | _ :: b :: rest => b :: oddIdx rest

/-- Does the chunk contain an opening bracket (`("{" in s) or ("[" in s)`)? -/
def hasOpenBracket (s : List Char) : Bool :=
  s.any fun c => c = '{' || c = '['

/-- Sort key used to rank candidate chunks. -/
def chunkKey (s : List Char) : Bool × Nat := (hasOpenBracket s, s.length)

/-- Strict "greater" on sort keys ((bracket?, length), `False < True`). -/
def keyGt (a b : Bool × Nat) : Bool :=
  (a.1 && !b.1) || (a.1 = b.1 && b.2 < a.2)

/-- First element of the candidates after a stable descending sort by
`chunkKey`: the strictly-best-so-far fold (a stable reverse sort keeps the
earliest element among equals in front). `[]` models `candidates[0] if
candidates else ""`. -/
def selectBest : List (List Char) → List Char
  | [] => []
  | c :: cs => cs.foldl (fun best x => if keyGt (chunkKey x) (chunkKey best) then x else best) c

/-- Strip an optional leading `json` language hint
(`text.lstrip()[4:].strip()` when the lowercased text starts with `json`). -/
def stripJsonHint (t : List Char) : List Char :=
  if ((pyLStrip t).take 4).map Char.toLower = "json".toList then
    pyStrip ((pyLStrip t).drop 4)
  else t

/-- The fenced branch of `_extract_json_from_text`: split on fences, prefer
nonempty fenced chunks, rank by `(has bracket, length)` descending, take the
best, strip a `json` hint. -/
def fenceSelect (text : List Char) : List Char :=
  let chunks := splitFence text
  let fenced := ((oddIdx chunks).map pyStrip).filter (· ≠ [])
  let candidates := if fenced ≠ [] then fenced else (chunks.map pyStrip).filter (· ≠ [])
  stripJsonHint (selectBest candidates)

/-- `_extract_json_from_text(text)` modelled down to the `json.loads`
boundary: the result is the list of character spans handed to `json.loads`
in order (the first that parses is returned by the source).  On a balanced
span it is `[span, candidate]` (the source falls back to parsing the whole
candidate text if the span fails to parse); when no balanced span is found
it is `[candidate]`; the only internal failure is `empty response`. -/
def extractJsonFromText (text : List Char) : Except (List Char) (List (List Char)) :=
  let t0 := pyStrip text
  if t0 = [] then .error ("empty response".toList)
  else
    let t1 := if hasFence t0 then fenceSelect t0 else t0
    match findSpan t1 with
    | .ok (s, e) => .ok [pySlice t1 s (e + 1), t1]
    | .error _ => .ok [t1]

/-! ### Dynamic values crossing the JSON boundary

`PyV` models the Python values that the sanitizer receives in record
fields after `json.loads`: `None`, booleans, integers, strings, and
non-coercible values (arrays/objects), the latter carrying their string
form for `str(...)`. -/

inductive PyV where
  | vnone : PyV
  | vbool : Bool → PyV
  | vint : Int → PyV
  | vstr : List Char → PyV
  | vother : List Char → PyV
deriving DecidableEq

/-- Python `str(x)` on such a value (not needed on `None`: the source
checks `is not None` before calling `str`). -/
def pyStr : PyV → List Char
  | .vnone => "None".toList
  | .vbool true => "True".toList
  | .vbool false => "False".toList
  | .vint n => intChars n
  | .vstr s => s
  | .vother s => s

/-- Python `int(str)` on a stripped string: optional sign, then a nonempty
run of decimal digits (the subset relevant here; exponents, underscores and
non-ASCII digits are not modelled). -/
def pyIntOfChars? (l : List Char) : Option Int :=
  match pyStrip l with
  | [] => none
  | c :: rest =>
    if c = '-' then
      if rest ≠ [] && rest.all isDigitChar then some (-(digitsToNat rest : Int)) else none
    else if c = '+' then
      if rest ≠ [] && rest.all isDigitChar then some (digitsToNat rest : Int) else none
    else
      if (c :: rest).all isDigitChar then some (digitsToNat (c :: rest) : Int) else none

/-- Python `int(x)`: `none` models a raised `TypeError`/`ValueError`. -/
def pyIntV : PyV → Option Int
  | .vnone => none
  | .vbool b => some (if b then 1 else 0)
  | .vint n => some n
  | .vstr s => pyIntOfChars? s
  | .vother _ => none

/-- The closed set of allowed transition names (`ALLOWED_TRANSITIONS`). -/
def allowedTransitions : List (List Char) :=
  ["叠化", "闪白", "向左", "向右", "向上", "向下", "缩放", "模糊"].map String.toList

/-- The fixed default transition (`DEFAULT_TRANSITION`). -/
def defaultTransition : List Char := "叠化".toList

/-- `_sanitize_transition(name, allowed)` (lines 138–143): keep the
stripped string form only when it is exactly one of `allowed`, otherwise
substitute the fixed default. -/
def sanitizeTransition (name : PyV) (allowed : List (List Char)) : List Char :=
  let n := match name with
    | .vnone => []
    | v => pyStrip (pyStr v)
  if n ∈ allowed then n else defaultTransition

/-- One raw candidate record: the three fields the sanitizer reads
(`m.get(...)` yields `vnone` when the key is absent). -/
structure RawMatch where
  srtIdx : PyV
  mid : PyV
  transition : PyV
deriving DecidableEq

/-- One element of the raw candidate list: a dict or something else. -/
inductive RawItem where
  | dict : RawMatch → RawItem
  | nondict : RawItem
deriving DecidableEq

/-- One sanitized output record. -/
structure MatchOut where
  srtIdx : Int
  mid : Option Int
  transition : List Char
deriving DecidableEq

/-- Coercion of the raw `id` field (lines 175–186): `None`/non-coercible
gives null, and a coerced id that is negative or above `max_material_id`
is set to null rather than dropping the record. -/
def coerceMid (maxMaterialId : Int) (v : PyV) : Option Int :=
  match pyIntV v with
  | none => none
  | some n => if n < 0 ∨ maxMaterialId < n then none else some n

/-- The non-reuse bookkeeping (lines 188–192): with `allow_reuse=false`, a
repeat of an already-used id is demoted to null, a fresh id is recorded. -/
def reuseStep (allowReuse : Bool) (used : List Int) (mid1 : Option Int) :
    Option Int × List Int :=
  if allowReuse then (mid1, used)
  else match mid1 with
    | none => (none, used)
    | some n => if n ∈ used then (none, used) else (some n, n :: used)

/-- The per-candidate loop of `_sanitize_matches` (lines 165–196), with the
set `used` of already-used material ids. -/
def sanitizeGo (allowed : List (List Char)) (maxMaterialId : Int) (allowReuse : Bool) :
    List RawItem → List Int → List MatchOut
  | [], _ => []
  | .nondict :: rest, used => sanitizeGo allowed maxMaterialId allowReuse rest used
  | .dict m :: rest, used =>
    match pyIntV m.srtIdx with
    | none => sanitizeGo allowed maxMaterialId allowReuse rest used
    | some idx =>
      ⟨idx, (reuseStep allowReuse used (coerceMid maxMaterialId m.mid)).1,
        sanitizeTransition m.transition allowed⟩ ::
        sanitizeGo allowed maxMaterialId allowReuse rest
          (reuseStep allowReuse used (coerceMid maxMaterialId m.mid)).2

/-- `_sanitize_matches(matches, allowed_transitions=..., max_material_id=...,
allow_reuse=...)` applied to a list (the non-list case raises before this
loop and is modelled at the call site). -/
def sanitizeMatches (ms : List RawItem) (allowed : List (List Char))
    (maxMaterialId : Int) (allowReuse : Bool) : List MatchOut :=
  sanitizeGo allowed maxMaterialId allowReuse ms []

/-! ### Deterministic fallback (lines 659–669) -/

/-- `for i, m in enumerate(matches): m["id"] = i % len(materials); ...`
with the running index `i`. -/
def fallbackReuse (materialCount : Nat) (allowed : List (List Char)) :
    Nat → List MatchOut → List MatchOut
  | _, [] => []
  | i, r :: rest =>
    ⟨r.srtIdx, some ((i % materialCount : Nat) : Int),
      sanitizeTransition (.vstr r.transition) allowed⟩ ::
      fallbackReuse materialCount allowed (i + 1) rest

/-- `for i, m in enumerate(matches): m["id"] = i if i < len(materials) else
None; ...` with the running index `i`. -/
def fallbackNoReuse (materialCount : Nat) (allowed : List (List Char)) :
    Nat → List MatchOut → List MatchOut
  | _, [] => []
  | i, r :: rest =>
    ⟨r.srtIdx, if i < materialCount then some (i : Int) else none,
      sanitizeTransition (.vstr r.transition) allowed⟩ ::
      fallbackNoReuse materialCount allowed (i + 1) rest

/-- The fallback block: if the sanitized list is nonempty, materials exist
and every id is null, replace assignments deterministically by position. -/
def applyFallback (ms : List MatchOut) (materialCount : Nat) (allowReuse : Bool)
    (allowed : List (List Char)) : List MatchOut :=
  if ms ≠ [] ∧ materialCount ≠ 0 ∧ ms.all (fun r => r.mid = none) then
    if allowReuse then fallbackReuse materialCount allowed 0 ms
    else fallbackNoReuse materialCount allowed 0 ms
  else ms

/-! ### The matching phase (`gemini_match_srt_to_materials`, lines 568–672) -/

/-- Conversion of a parsed JSON value to the dynamic value seen by the
sanitizer. -/
def pvOfJson : Json → PyV
  | .jnull => .vnone
  | .jbool b => .vbool b
  | .jnum n => .vint n
  | .jstr s => .vstr s
  | j => .vother (serialize j)

/-- Dictionary field lookup (`m.get(key)`); JSON duplicate keys resolve to
the last occurrence, a missing key yields `None`. -/
def lookupField : JsonObj → List Char → Option Json
  | .onil, _ => none
  | .ocons k1 v rest, k =>
    match lookupField rest k with
    | some r => some r
    | none => if k1 = k then some v else none

def getField (fs : JsonObj) (k : List Char) : PyV :=
  match lookupField fs k with
  | none => .vnone
  | some j => pvOfJson j

def rawItemOfJson : Json → RawItem
  | .jobj fs =>
      .dict ⟨getField fs "srt_idx".toList, getField fs "id".toList,
        getField fs "transition".toList⟩
  | _ => .nondict

def rawItemsOfArr : JsonArr → List RawItem
  | .anil => []
  | .acons x rest => rawItemOfJson x :: rawItemsOfArr rest

def jsonIsList : Json → Bool
  | .jarr _ => true
  | _ => false

def rawItemsOfJson : Json → List RawItem
  | .jarr xs => rawItemsOfArr xs
  | _ => []

/-- Re-encoding of sanitized records as the JSON value written to the match
cache and returned. -/
def encodeMatch (r : MatchOut) : Json :=
  .jobj (.ocons "srt_idx".toList (.jnum r.srtIdx)
    (.ocons "id".toList (match r.mid with | some n => .jnum n | none => .jnull)
      (.ocons "transition".toList (.jstr r.transition) .onil)))

def encodeMatches : List MatchOut → JsonArr
  | [] => .anil
  | r :: rest => .acons (encodeMatch r) (encodeMatches rest)

/-- The post-model-call part of the matching phase (lines 639–669).

`extractResult` stands for the outcome of
`_extract_json_from_text(g.response)` (with `json.loads` external).
The first component is the run's outcome: `error` models the raised
`RuntimeError` (fatal, no partial match list); the second component
records whether the raw response was persisted to the diagnostic file
`srt_matches_raw.txt` before raising. -/
def matchPhase (extractResult : Except (List Char) Json) (allowed : List (List Char))
    (materialCount : Nat) (allowReuse : Bool) :
    Except (List Char) (List MatchOut) × Bool :=
  match extractResult with
  | .error e =>
      (.error ("Failed to parse Gemini matches JSON: ".toList ++ e), true)
  | .ok j =>
    if jsonIsList j then
      (.ok (applyFallback
        (sanitizeMatches (rawItemsOfJson j) allowed ((materialCount : Int) - 1) allowReuse)
        materialCount allowReuse allowed), false)
    else (.error ("Gemini returned non-list matches JSON.".toList), false)

/-- `gemini_match_srt_to_materials` from the cache check on (lines
578–672).  `cacheFile` models the state of `srt_matches.json`: `none` =
absent, `some none` = present but unparsable, `some (some j)` = present
and parsing to `j`.  When the cached value is returned the model is never
invoked, so the result does not depend on `extractResult`. -/
def geminiMatchSrt (force : Bool) (cacheFile : Option (Option Json))
    (extractResult : Except (List Char) Json) (allowed : List (List Char))
    (materialCount : Nat) (allowReuse : Bool) :
    Except (List Char) Json × Bool :=
  match force, cacheFile with
  | false, some (some j) => (.ok j, false)
  | _, _ =>
    match matchPhase extractResult allowed materialCount allowReuse with
    | (.error e, saved) => (.error e, saved)
    | (.ok ms, _) => (.ok (.jarr (encodeMatches ms)), false)

/-! ### Caption time codec (`format_srt_timestamp`, `_parse_time`) -/

/-- Python `round()` to an integer: round half to even. -/
def pyRound (q : ℚ) : Int :=
  if q - ⌊q⌋ < 1 / 2 then ⌊q⌋
  else if (1 : ℚ) / 2 < q - ⌊q⌋ then ⌊q⌋ + 1
  else if ⌊q⌋ % 2 = 0 then ⌊q⌋ else ⌊q⌋ + 1

/-- `⌊log₂ q⌋` of a positive rational, by normalizing into `[1, 2)` with
an iteration budget of 4096 (beyond the full binary64 exponent range, so
the budget is never exhausted for the magnitudes handled here). -/
def ilog2Go : Nat → ℚ → ℤ → ℤ
  | 0, _, acc => acc
  | fuel + 1, q, acc =>
    if q < 1 then ilog2Go fuel (q * 2) (acc - 1)
    else if 2 ≤ q then ilog2Go fuel (q / 2) (acc + 1)
    else acc

def ilog2 (q : ℚ) : ℤ := ilog2Go 4096 q 0

/-- Rounding of an exact rational to the nearest IEEE-754 binary64 value
(round to nearest, ties to even): the 53-bit significand is obtained by
half-even rounding of `q·2^(52−⌊log₂ q⌋)`.  Overflow and subnormals are
not modelled — every quantity handled here is far inside the normal
range.  This is the value CPython stores for a `float` result. -/
def roundDouble (q : ℚ) : ℚ :=
  if q = 0 then 0
  else if q < 0 then
    -((pyRound (-q * 2 ^ (52 - ilog2 (-q))) : ℚ) / 2 ^ (52 - ilog2 (-q)))
  else (pyRound (q * 2 ^ (52 - ilog2 q)) : ℚ) / 2 ^ (52 - ilog2 q)

/-- Double-precision addition and multiplication: IEEE basic operations
are correctly rounded, i.e. the exact result rounded to the nearest
double. -/
def fadd (a b : ℚ) : ℚ := roundDouble (a + b)

def fmul (a b : ℚ) : ℚ := roundDouble (a * b)

/-- Python `float(str)` restricted to the decimal literals relevant here:
optional sign, digits with an optional fractional part.  `none` models a
raised `ValueError`. -/
def decChars? (l : List Char) : Option ℚ :=
  match splitChar '.' l with
  | [a] => if a ≠ [] && a.all isDigitChar then some (digitsToNat a) else none
  | [a, b] =>
      if (a ≠ [] || b ≠ []) && a.all isDigitChar && b.all isDigitChar then
        some ((digitsToNat a : ℚ) + (digitsToNat b : ℚ) / (10 ^ b.length))
      else none
  | _ => none

/-- Python `float(str)` stores the nearest double to the decimal value
(CPython's conversion is correctly rounded). -/
def pyFloat? (l : List Char) : Option ℚ :=
  match pyStrip l with
  | [] => none
  | c :: rest =>
    if c = '-' then (decChars? rest).map (fun q => -roundDouble q)
    else if c = '+' then (decChars? rest).map roundDouble
    else (decChars? (c :: rest)).map roundDouble

/-- `_parse_time(t)` (lines 241–247): replace `,` by `.`, split on `:`;
anything but exactly three parts yields `0.0`; three parts are parsed as
floats (`none` models the raised `ValueError`) and combined as
`float(h)*3600.0 + float(m)*60.0 + float(s)` in double arithmetic
(left-associated, each operation correctly rounded). -/
def parseTime? (t : List Char) : Option ℚ :=
  let t1 := t.map fun c => if c = ',' then '.' else c
  match splitChar ':' t1 with
  | [a, b, c] => do
    let x ← pyFloat? a
    let y ← pyFloat? b
    let z ← pyFloat? c
    pure (fadd (fadd (fmul x 3600) (fmul y 60)) z)
  | _ => some 0

/-- `format_srt_timestamp(seconds)` (lines 200–208): compute the double
`seconds * 1000.0`, round it to the nearest integer (`int(round(...))`,
half to even), floor-divmod into h/m/s/ms (Python `//` and `%`), zero-pad
m/s to 2 and ms to 3 digits, leave h unbounded (but at least 2 digits). -/
def formatSrtTimestamp (seconds : ℚ) : List Char :=
  let ms0 := pyRound (fmul seconds 1000)
  let s0 := Int.fdiv ms0 1000
  let msr := Int.fmod ms0 1000
  let m0 := Int.fdiv s0 60
  let sr := Int.fmod s0 60
  let hr := Int.fdiv m0 60
  let mr := Int.fmod m0 60
  padZero 2 (intChars hr) ++ ':' :: padZero 2 (intChars mr) ++ ':' :: padZero 2 (intChars sr)
    ++ ',' :: padZero 3 (intChars msr)

/-- The canonical (well-formed) caption time string `HH:MM:SS,mmm`,
hours zero-padded to at least two digits. -/
def timeString (h m s ms : Nat) : List Char :=
  padZero 2 (natChars h) ++ ':' :: padZero 2 (natChars m) ++ ':' :: padZero 2 (natChars s)
    ++ ',' :: padZero 3 (natChars ms)

/-! ### SRT parsing (`parse_srt_content`, lines 223–256) -/

structure SrtItem where
  idx : Nat
  start : ℚ
  stop : ℚ
  text : List Char
deriving DecidableEq

instance : DecidableEq (Except (List Char) (List SrtItem)) := fun a b =>
  match a, b with
  | .ok x, .ok y =>
    if h : x = y then .isTrue (by rw [h]) else .isFalse (by simp [h])
  | .error x, .error y =>
    if h : x = y then .isTrue (by rw [h]) else .isFalse (by simp [h])
  | .ok _, .error _ => .isFalse (by simp)
  | .error _, .ok _ => .isFalse (by simp)

/-- A character accepted by Python `str.isdigit()`: the ASCII decimal
digits plus the characters with `Numeric_Type=Digit` that `int()`
nevertheless rejects — modelled here by the Latin-1 superscripts
`¹²³` (U+00B9, U+00B2, U+00B3) and the superscript and subscript digit blocks
U+2070–U+2079 and U+2080–U+2089.  (Non-ASCII `Nd` scripts, which both
`isdigit()` and `int()` accept, are outside the model.) -/
def isPyDigit (c : Char) : Bool :=
  isDigitChar c || c.toNat = 0xB9 || c.toNat = 0xB2 || c.toNat = 0xB3
    || (0x2070 ≤ c.toNat && c.toNat ≤ 0x2079)
    || (0x2080 ≤ c.toNat && c.toNat ≤ 0x2089)

/-- Python `str.isdigit()` on a line: nonempty and all digit characters. -/
def isDigitLine (l : List Char) : Bool :=
  l ≠ [] && l.all isPyDigit

/-- Python `int(line)` on a line that passed `isdigit()`: it succeeds
exactly when the line is ASCII decimal; on superscript and subscript digits such
as `²` it raises `ValueError` (modelled as `none`). -/
def intOfDigitLine? (l : List Char) : Option Nat :=
  if l.all isDigitChar then some (digitsToNat l) else none

/-- `content.replace("\r\n", "\n").replace("\r", "\n")`. -/
def normalizeNewlines : List Char → List Char
  | [] => []
  | '\r' :: '\n' :: rest => '\n' :: normalizeNewlines rest
  | '\r' :: rest => '\n' :: normalizeNewlines rest
  | c :: rest => c :: normalizeNewlines rest

/-- Python `time_line.split("-->")`. -/
def splitOnArrow : List Char → List (List Char)
  | '-' :: '-' :: '>' :: rest => [] :: splitOnArrow rest
  | c :: rest =>
    match splitOnArrow rest with
    | [] => [[c]]
    | g :: gs => (c :: g) :: gs
  | [] => [[]]

/-- `"-->" in line`. -/
def containsArrow (l : List Char) : Bool :=
  match splitOnArrow l with
  | _ :: _ :: _ => true
  | _ => false

/-- `" ".join([t for t in txt_lines if t]).strip()`. -/
def joinText (txt : List (List Char)) : List Char :=
  pyStrip (List.intercalate [' '] (txt.filter (· ≠ [])))

/-- The `while i < len(lines)` loop of `parse_srt_content` over the list of
stripped lines, with an explicit iteration budget: the loop index `i`
strictly increases every iteration, so the loop runs at most
`len(lines)` iterations and the zero-fuel branch is unreachable from
`parseSrtContent` below.  A block is recognized when a digit line is
immediately followed by a line containing `-->`; the text lines are the
following nonblank non-digit lines.  `error` models an uncaught
`ValueError` raised by `float(...)` inside `_parse_time`, carrying the
offending token. -/
def parseBlocks : Nat → List (List Char) → Except (List Char) (List SrtItem)
  | 0, _ => .ok []
  | _ + 1, [] => .ok []
  | fuel + 1, l :: rest =>
    if isDigitLine l then
      match rest with
      | [] => .ok []
      | tl :: rest2 =>
        if containsArrow tl then
          match intOfDigitLine? l with
          | none => .error l
          | some idx =>
            let txt := rest2.takeWhile fun x => x ≠ [] && !isDigitLine x
            let rest3 := rest2.dropWhile fun x => x ≠ [] && !isDigitLine x
            match splitOnArrow tl with
            | a :: b :: _ =>
              match parseTime? (pyStrip a) with
              | none => .error (pyStrip a)
              | some st =>
                match parseTime? (pyStrip b) with
                | none => .error (pyStrip b)
                | some en => do
                  let items ← parseBlocks fuel rest3
                  .ok (⟨idx, st, en, joinText txt⟩ :: items)
            | _ => .ok []
        else parseBlocks fuel (tl :: rest2)
    else parseBlocks fuel rest

/-- `parse_srt_content(content)`: normalize line endings, split into
stripped lines, run the block loop. -/
def parseSrtContent (content : List Char) : Except (List Char) (List SrtItem) :=
  parseBlocks ((splitChar '\n' (normalizeNewlines content)).map pyStrip).length
    ((splitChar '\n' (normalizeNewlines content)).map pyStrip)

/-- One line is "time-safe" when, if it contains `-->`, its first two
arrow-separated tokens parse without raising. -/
def lineSafe (l : List Char) : Bool :=
  match splitOnArrow l with
  | a :: b :: _ => (parseTime? (pyStrip a)).isSome && (parseTime? (pyStrip b)).isSome
  | _ => true

/-- One line is "index-safe" when, if it passes `isdigit()`, `int()` also
accepts it (the line is ASCII decimal). -/
def idxLineSafe (l : List Char) : Bool :=
  !isDigitLine l || l.all isDigitChar

/-- Every stripped line of the input is time-safe and index-safe. -/
def srtSafe (content : List Char) : Bool :=
  ((splitChar '\n' (normalizeNewlines content)).map pyStrip).all
    fun l => lineSafe l && idxLineSafe l

/-! ### Material-analysis cache (`analyze_materials_with_gemini`, lines 385–565) -/

/-- One value of the on-disk `material_analysis.json` mapping. -/
structure CEntry where
  mtime : ℚ
  kind : List Char
  duration : ℚ
  tags : List (List Char)
  desc : List Char
deriving DecidableEq

structure MaterialInfo where
  id : Nat
  path : List Char
  kind : List Char
  duration : ℚ
  desc : List Char
  tags : List (List Char)
deriving DecidableEq

/-- The cache dict: a path-keyed mapping with insertion order (unique keys). -/
abbrev CacheMap := List (List Char × CEntry)

def lookupC : CacheMap → List Char → Option CEntry
  | [], _ => none
  | (k, v) :: rest, p => if k = p then some v else lookupC rest p

def insertC : CacheMap → List Char → CEntry → CacheMap
  | [], p, e => [(p, e)]
  | (k, v) :: rest, p, e =>
    if k = p then (k, e) :: rest else (k, v) :: insertC rest p e

def videoExts : List (List Char) :=
  [".mp4", ".mov", ".mkv", ".avi", ".webm", ".m4v"].map String.toList

/-- The extension of a path: the suffix from the last `.`, lowercased
(`os.path.splitext(...)[1].lower()`), or empty when there is no dot. -/
def extOf (p : List Char) : List Char :=
  match (p.reverse.takeWhile (· ≠ '.')).length + 1 ≤ p.length, p.reverse.any (· = '.') with
  | _, false => []
  | _, true => ('.' :: (p.reverse.takeWhile (· ≠ '.')).reverse).map Char.toLower

def kindOf (p : List Char) : List Char :=
  if extOf p ∈ videoExts then "video".toList else "image".toList

/-- The running state of the material loop: the cache mapping, the
accumulated result records, and how many times the compute step (model
call, proxy generation, cache write) has run. -/
structure AnalyzeState where
  cache : CacheMap
  results : List MaterialInfo
  computeCount : Nat
deriving DecidableEq

/-- One iteration of the `for p in material_paths` loop (lines 419–563).
`probe` models `os.path.getmtime` (0.0 on error), `compute` models the
whole model-call block and yields the tags and description that survive
validation. -/
def analyzeStep (force : Bool) (probe : List Char → ℚ)
    (compute : List Char → List (List Char) × List Char)
    (st : AnalyzeState) (p : List Char) : AnalyzeState :=
  let kind := kindOf p
  let mtime := probe p
  let cached := lookupC st.cache p
  match cached with
  | some e =>
    if force = false ∧ e.mtime = mtime then
      { st with results :=
          st.results ++ [⟨st.results.length, p, e.kind, e.duration, e.desc, e.tags⟩] }
    else
      let td := compute p
      let duration := if kind = "video".toList then e.duration else 0
      let entry : CEntry := ⟨mtime, kind, duration, td.1, td.2⟩
      ⟨insertC st.cache p entry,
        st.results ++ [⟨st.results.length, p, kind, duration, td.2, td.1⟩],
        st.computeCount + 1⟩
  | none =>
      let td := compute p
      let entry : CEntry := ⟨mtime, kind, 0, td.1, td.2⟩
      ⟨insertC st.cache p entry,
        st.results ++ [⟨st.results.length, p, kind, 0, td.2, td.1⟩],
        st.computeCount + 1⟩

/-- `analyze_materials_with_gemini(material_paths, cache_dir=..., force=...)`
starting from the cache mapping loaded from disk.  Each compute step
write-through persists the whole mapping; the final cache field is the
on-disk state after the run. -/
def analyzeMaterials (force : Bool) (probe : List Char → ℚ)
    (compute : List Char → List (List Char) × List Char)
    (paths : List (List Char)) (cache0 : CacheMap) : AnalyzeState :=
  paths.foldl (analyzeStep force probe compute) ⟨cache0, [], 0⟩

/-! ## Theorems -/

/-! ### C10: the match cache short-circuits everything -/

/-- **C10.** If `force` is false and the match-cache file exists with
parseable JSON content `j`, `gemini_match_srt_to_materials` returns exactly
`j`: the result does not depend on the model response (`er`), and since `j`
is arbitrary — it need not be a list, its ids are not checked against any
bound or for uniqueness, its transitions are not checked for membership,
and no fallback runs — none of the sanitization layer is applied. -/
theorem cached_match_returned_verbatim (j : Json) (er : Except (List Char) Json)
    (allowed : List (List Char)) (mc : Nat) (reuse : Bool) :
    geminiMatchSrt false (some (some j)) er allowed mc reuse = (.ok j, false) := rfl

/-! ### C9: matching-phase failures -/

/-- **C9 counterexample.** A matching-phase failure with no raw-response
persistence: when extraction succeeds but the top-level value is not a list
(here the empty object), the source raises
`RuntimeError("Gemini returned non-list matches JSON.")` *without* writing
`srt_matches_raw.txt` (the persistence flag is `false`).  This refutes the
claim that the raw response text is persisted before *every* matching-phase
fatal error. -/
theorem nonlist_failure_without_raw_persist :
    matchPhase (.ok (Json.jobj .onil)) allowedTransitions 1 false
      = (.error ("Gemini returned non-list matches JSON.".toList), false) := rfl

/-- **C9 (amended).** Every matching-phase failure is fatal for the run —
an unparsable response or a non-list top-level value yields an error and no
partial match list — and the raw response text is persisted to the
diagnostic location before raising in the *unparsable* case, but **not** in
the non-list case.  The final conjunct shows the error propagating out of
`gemini_match_srt_to_materials` (no cached value can mask it when the model
is consulted). -/
theorem matching_failures_fatal :
    (∀ e allowed mc reuse, matchPhase (.error e) allowed mc reuse
        = (.error ("Failed to parse Gemini matches JSON: ".toList ++ e), true))
    ∧ (∀ j allowed mc reuse, jsonIsList j = false →
        matchPhase (.ok j) allowed mc reuse
          = (.error ("Gemini returned non-list matches JSON.".toList), false))
    ∧ (∀ e cf allowed mc reuse, geminiMatchSrt true cf (.error e) allowed mc reuse
        = (.error ("Failed to parse Gemini matches JSON: ".toList ++ e), true)) := by
  refine ⟨fun e allowed mc reuse => rfl, fun j allowed mc reuse h => ?_, fun e cf allowed mc reuse => ?_⟩
  · simp [matchPhase, h]
  · cases cf with
    | none => rfl
    | some o => cases o <;> rfl

/-- Witness for `matching_failures_fatal` at concrete inputs. -/
theorem matching_failures_fatal_witness :
    (matchPhase (.error "boom".toList) allowedTransitions 2 false
      = (.error ("Failed to parse Gemini matches JSON: ".toList ++ "boom".toList), true))
    ∧ jsonIsList (Json.jnum 3) = false
    ∧ (matchPhase (.ok (Json.jnum 3)) allowedTransitions 2 false
        = (.error ("Gemini returned non-list matches JSON.".toList), false))
    ∧ (geminiMatchSrt true none (.error "boom".toList) allowedTransitions 2 false
        = (.error ("Failed to parse Gemini matches JSON: ".toList ++ "boom".toList), true)) :=
  ⟨matching_failures_fatal.1 _ _ _ _, rfl,
    matching_failures_fatal.2.1 _ _ _ _ rfl,
    matching_failures_fatal.2.2 _ _ _ _ _⟩

/-! ### C6: the deterministic fallback -/

theorem fallbackReuse_mids (mc : Nat) (allowed : List (List Char)) :
    ∀ (ms : List MatchOut) (i : Nat),
      (fallbackReuse mc allowed i ms).map (fun r => r.mid)
        = (List.range' i ms.length).map (fun k => some ((k % mc : Nat) : Int))
  | [], i => by simp [fallbackReuse]
  | r :: rest, i => by
    simp [fallbackReuse, List.range'_succ, fallbackReuse_mids mc allowed rest (i + 1)]

theorem fallbackNoReuse_mids (mc : Nat) (allowed : List (List Char)) :
    ∀ (ms : List MatchOut) (i : Nat),
      (fallbackNoReuse mc allowed i ms).map (fun r => r.mid)
        = (List.range' i ms.length).map
            (fun k => if k < mc then some ((k : Nat) : Int) else none)
  | [], i => by simp [fallbackNoReuse]
  | r :: rest, i => by
    simp [fallbackNoReuse, List.range'_succ, fallbackNoReuse_mids mc allowed rest (i + 1)]

/-- **C6.** Whenever, after sanitization, the match list is nonempty,
materials exist, and every record's material id is null, the fallback
replaces ids deterministically by output position: with reuse,
`id = position mod material_count`; without reuse, `id = position` while
`position < material_count` and null afterwards. -/
theorem fallback_assigns_by_position (ms : List MatchOut) (mc : Nat) (reuse : Bool)
    (allowed : List (List Char)) (h1 : ms ≠ []) (h2 : 0 < mc)
    (h3 : ∀ r ∈ ms, r.mid = none) :
    (applyFallback ms mc reuse allowed).map (fun r => r.mid)
      = (List.range ms.length).map
          (fun k => if reuse then some ((k % mc : Nat) : Int)
                    else if k < mc then some ((k : Nat) : Int) else none) := by
  have hall : ms.all (fun r => r.mid = none) = true := by
    simpa [List.all_eq_true] using h3
  have hcond : ms ≠ [] ∧ mc ≠ 0 ∧ ms.all (fun r => r.mid = none) := ⟨h1, by omega, hall⟩
  rw [applyFallback, if_pos hcond]
  cases reuse with
  | true => simp [fallbackReuse_mids, List.range_eq_range']
  | false => simp [fallbackNoReuse_mids, List.range_eq_range']

/-- Witness for `fallback_assigns_by_position`: 3 captions, 2 materials,
all-null input gives ids `[0, 1, null]` without reuse and `[0, 1, 0]` with
reuse. -/
theorem fallback_assigns_by_position_witness :
    (applyFallback [⟨1, none, []⟩, ⟨2, none, []⟩, ⟨3, none, []⟩] 2 false
        allowedTransitions).map (fun r => r.mid) = [some 0, some 1, none]
    ∧ (applyFallback [⟨1, none, []⟩, ⟨2, none, []⟩, ⟨3, none, []⟩] 2 true
        allowedTransitions).map (fun r => r.mid) = [some 0, some 1, some 0] :=
  ⟨(fallback_assigns_by_position _ 2 false allowedTransitions (by decide) (by decide)
      (by decide)).trans (by decide),
    (fallback_assigns_by_position _ 2 true allowedTransitions (by decide) (by decide)
      (by decide)).trans (by decide)⟩

/-! ### C7: the material-analysis cache -/

theorem lookupC_insertC_self (c : CacheMap) (p : List Char) (e : CEntry) :
    lookupC (insertC c p e) p = some e := by
  induction c with
  | nil => simp [insertC, lookupC]
  | cons kv rest ih =>
    by_cases h : kv.1 = p
    · simp [insertC, lookupC, h]
    · simp [insertC, lookupC, h, ih]

/-- **C7.** With `force=false`: (1) for a material whose stored entry's
modification time equals the probed one, the stored record is returned
unchanged (as the sole result, with id 0) and the compute step does not run
— the cache mapping is untouched; (2) analyzing the same unchanged file
twice (same probe) starting from a cache with no entry runs the compute
step exactly once: once in the first run and zero times in the second. -/
theorem cache_hit_skips_compute :
    (∀ (probe : List Char → ℚ) compute cache (p : List Char) e,
       lookupC cache p = some e → e.mtime = probe p →
       analyzeMaterials false probe compute [p] cache
         = ⟨cache, [⟨0, p, e.kind, e.duration, e.desc, e.tags⟩], 0⟩)
    ∧ (∀ (probe : List Char → ℚ) compute cache0 (p : List Char),
       lookupC cache0 p = none →
       (analyzeMaterials false probe compute [p] cache0).computeCount = 1
       ∧ (analyzeMaterials false probe compute [p]
            (analyzeMaterials false probe compute [p] cache0).cache).computeCount = 0) := by
  constructor
  · intro probe compute cache p e hl hm
    simp [analyzeMaterials, analyzeStep, hl, hm]
  · intro probe compute cache0 p hl
    constructor
    · simp [analyzeMaterials, analyzeStep, hl]
    · have hstep : (analyzeMaterials false probe compute [p] cache0).cache
        = insertC cache0 p ⟨probe p, kindOf p, 0, (compute p).1, (compute p).2⟩ := by
        simp [analyzeMaterials, analyzeStep, hl]
      rw [hstep]
      simp [analyzeMaterials, analyzeStep, lookupC_insertC_self]

/-- Witness for `cache_hit_skips_compute` at concrete inputs. -/
theorem cache_hit_skips_compute_witness :
    (lookupC [(['a'], ⟨5, "video".toList, 1, [], []⟩)] ['a']
        = some ⟨5, "video".toList, 1, [], []⟩)
    ∧ ((⟨5, "video".toList, 1, [], []⟩ : CEntry).mtime = (fun _ => (5 : ℚ)) ['a'])
    ∧ (analyzeMaterials false (fun _ => (5 : ℚ)) (fun _ => ([], []))
        [['a']] [(['a'], ⟨5, "video".toList, 1, [], []⟩)]
        = ⟨[(['a'], ⟨5, "video".toList, 1, [], []⟩)],
            [⟨0, ['a'], "video".toList, 1, [], []⟩], 0⟩)
    ∧ (lookupC [] ['a'] = none)
    ∧ (analyzeMaterials false (fun _ => (5 : ℚ)) (fun _ => ([], [])) [['a']] []).computeCount = 1
    ∧ (analyzeMaterials false (fun _ => (5 : ℚ)) (fun _ => ([], [])) [['a']]
        (analyzeMaterials false (fun _ => (5 : ℚ)) (fun _ => ([], [])) [['a']] []).cache).computeCount
        = 0 :=
  ⟨rfl, rfl,
    cache_hit_skips_compute.1 (fun _ => (5 : ℚ)) (fun _ => ([], []))
      [(['a'], ⟨5, "video".toList, 1, [], []⟩)] ['a'] ⟨5, "video".toList, 1, [], []⟩ rfl rfl,
    rfl,
    (cache_hit_skips_compute.2 (fun _ => (5 : ℚ)) (fun _ => ([], [])) [] ['a'] rfl).1,
    (cache_hit_skips_compute.2 (fun _ => (5 : ℚ)) (fun _ => ([], [])) [] ['a'] rfl).2⟩

/-! ### C4 and C5: the sanitizer invariants -/

theorem sanitizeGo_nodup (allowed : List (List Char)) (maxId : Int) :
    ∀ (ms : List RawItem) (used : List Int),
      ((sanitizeGo allowed maxId false ms used).filterMap (fun r => r.mid)).Nodup
      ∧ ∀ n, n ∈ (sanitizeGo allowed maxId false ms used).filterMap (fun r => r.mid) →
          n ∉ used
  | [], used => by simp [sanitizeGo]
  | .nondict :: rest, used => sanitizeGo_nodup allowed maxId rest used
  | .dict m :: rest, used => by
    cases hsi : pyIntV m.srtIdx with
    | none =>
      have hgo : sanitizeGo allowed maxId false (.dict m :: rest) used
          = sanitizeGo allowed maxId false rest used := by simp [sanitizeGo, hsi]
      rw [hgo]
      exact sanitizeGo_nodup allowed maxId rest used
    | some idx =>
      have hgo : sanitizeGo allowed maxId false (.dict m :: rest) used
          = ⟨idx, (reuseStep false used (coerceMid maxId m.mid)).1,
              sanitizeTransition m.transition allowed⟩ ::
            sanitizeGo allowed maxId false rest
              (reuseStep false used (coerceMid maxId m.mid)).2 := by
        simp [sanitizeGo, hsi]
      cases hm : coerceMid maxId m.mid with
      | none =>
        have hrs : reuseStep false used (coerceMid maxId m.mid) = (none, used) := by
          rw [hm]; rfl
        have ih := sanitizeGo_nodup allowed maxId rest used
        have hfm : (sanitizeGo allowed maxId false (.dict m :: rest) used).filterMap
              (fun r => r.mid)
            = (sanitizeGo allowed maxId false rest used).filterMap (fun r => r.mid) := by
          rw [hgo, hrs]; simp
        refine ⟨?_, ?_⟩
        · rw [hfm]; exact ih.1
        · intro n hn; rw [hfm] at hn; exact ih.2 n hn
      | some n0 =>
        by_cases hu : n0 ∈ used
        · have hrs : reuseStep false used (coerceMid maxId m.mid) = (none, used) := by
            rw [hm]; simp [reuseStep, hu]
          have ih := sanitizeGo_nodup allowed maxId rest used
          have hfm : (sanitizeGo allowed maxId false (.dict m :: rest) used).filterMap
                (fun r => r.mid)
              = (sanitizeGo allowed maxId false rest used).filterMap (fun r => r.mid) := by
            rw [hgo, hrs]; simp
          refine ⟨?_, ?_⟩
          · rw [hfm]; exact ih.1
          · intro n hn; rw [hfm] at hn; exact ih.2 n hn
        · have hrs : reuseStep false used (coerceMid maxId m.mid) = (some n0, n0 :: used) := by
            rw [hm]; simp [reuseStep, hu]
          have ih := sanitizeGo_nodup allowed maxId rest (n0 :: used)
          have hfm : (sanitizeGo allowed maxId false (.dict m :: rest) used).filterMap
                (fun r => r.mid)
              = n0 :: (sanitizeGo allowed maxId false rest (n0 :: used)).filterMap
                  (fun r => r.mid) := by
            rw [hgo, hrs]; simp
          refine ⟨?_, ?_⟩
          · rw [hfm, List.nodup_cons]
            exact ⟨fun hmem => (ih.2 n0 hmem) (List.mem_cons_self n0 used), ih.1⟩
          · intro n hn
            rw [hfm] at hn
            rcases List.mem_cons.mp hn with h | h
            · subst h; exact hu
            · intro habs
              exact (ih.2 n h) (List.mem_cons_of_mem _ habs)

/-- **C4.** (1) With `allow_reuse=false` the sanitized list never contains
two records sharing the same non-null material id (the non-null ids are
pairwise distinct).  (2) The first occurrence of a valid id is kept and a
later repeat is demoted to null: feeding the same record (with a coercible
caption index and an in-range id `n`) twice yields ids `[n, null]`. -/
theorem sanitize_no_reuse_unique_ids :
    (∀ (ms : List RawItem) (allowed : List (List Char)) (maxId : Int),
      ((sanitizeMatches ms allowed maxId false).filterMap (fun r => r.mid)).Nodup)
    ∧ (∀ (s t1 t2 : PyV) (n maxId idx : Int) (allowed : List (List Char)),
        pyIntV s = some idx → 0 ≤ n → n ≤ maxId →
        (sanitizeMatches [.dict ⟨s, .vint n, t1⟩, .dict ⟨s, .vint n, t2⟩]
            allowed maxId false).map (fun r => r.mid) = [some n, none]) := by
  constructor
  · intro ms allowed maxId
    exact (sanitizeGo_nodup allowed maxId ms []).1
  · intro s t1 t2 n maxId idx allowed hs h0 h1
    have hco : coerceMid maxId (PyV.vint n) = some n := by
      have hr : ¬(n < 0 ∨ maxId < n) := by omega
      simp [coerceMid, pyIntV, hr]
    simp [sanitizeMatches, sanitizeGo, hs, hco, reuseStep]

/-- Witness for `sanitize_no_reuse_unique_ids` at concrete inputs. -/
theorem sanitize_no_reuse_unique_ids_witness :
    ((sanitizeMatches [.dict ⟨.vint 1, .vint 2, .vnone⟩, .dict ⟨.vint 2, .vint 2, .vnone⟩]
        allowedTransitions 3 false).filterMap (fun r => r.mid)).Nodup
    ∧ pyIntV (.vint 7) = some 7 ∧ (0 : Int) ≤ 2 ∧ (2 : Int) ≤ 3
    ∧ (sanitizeMatches [.dict ⟨.vint 7, .vint 2, .vnone⟩, .dict ⟨.vint 7, .vint 2, .vnone⟩]
        allowedTransitions 3 false).map (fun r => r.mid) = [some 2, none] :=
  ⟨sanitize_no_reuse_unique_ids.1 _ allowedTransitions 3, rfl, by decide, by decide,
    sanitize_no_reuse_unique_ids.2 (.vint 7) .vnone .vnone 2 3 7 allowedTransitions rfl
      (by decide) (by decide)⟩

/-- **C5 counterexample.** The claim quantifies over *every*
`allowed_transitions` list, but when the allowed list does not contain the
fixed default (`叠化`), a record whose raw transition is not allowed gets
the default substituted — which is itself outside the allowed set.  With
`allowed = []`, one valid record is returned carrying `叠化 ∉ []`. -/
theorem sanitize_transition_outside_allowed :
    (sanitizeMatches [.dict ⟨.vint 1, .vint 0, .vstr ['x']⟩] [] 0 false).map
        (fun r => r.transition) = [defaultTransition]
    ∧ defaultTransition ∉ ([] : List (List Char)) := by
  constructor
  · rfl
  · simp

theorem sanitizeTransition_mem (name : PyV) (allowed : List (List Char))
    (hdef : defaultTransition ∈ allowed) : sanitizeTransition name allowed ∈ allowed := by
  cases name <;> simp only [sanitizeTransition] <;> split <;> assumption

theorem sanitizeGo_transitions_mem (allowed : List (List Char)) (maxId : Int)
    (reuse : Bool) (hdef : defaultTransition ∈ allowed) :
    ∀ (ms : List RawItem) (used : List Int),
      ∀ r ∈ sanitizeGo allowed maxId reuse ms used, r.transition ∈ allowed
  | [], used => by simp [sanitizeGo]
  | .nondict :: rest, used =>
    sanitizeGo_transitions_mem allowed maxId reuse hdef rest used
  | .dict m :: rest, used => by
    intro r hr
    cases hsi : pyIntV m.srtIdx with
    | none =>
      have hgo : sanitizeGo allowed maxId reuse (.dict m :: rest) used
          = sanitizeGo allowed maxId reuse rest used := by simp [sanitizeGo, hsi]
      rw [hgo] at hr
      exact sanitizeGo_transitions_mem allowed maxId reuse hdef rest used r hr
    | some idx =>
      have hgo : sanitizeGo allowed maxId reuse (.dict m :: rest) used
          = ⟨idx, (reuseStep reuse used (coerceMid maxId m.mid)).1,
              sanitizeTransition m.transition allowed⟩ ::
            sanitizeGo allowed maxId reuse rest
              (reuseStep reuse used (coerceMid maxId m.mid)).2 := by
        simp [sanitizeGo, hsi]
      rw [hgo] at hr
      rcases List.mem_cons.mp hr with h | h
      · subst h
        exact sanitizeTransition_mem _ _ hdef
      · exact sanitizeGo_transitions_mem allowed maxId reuse hdef rest _ r h

/-- **C5 (amended).** Provided the fixed default transition is a member of
the allowed list (true for the program's constant `ALLOWED_TRANSITIONS`),
every record returned by `_sanitize_matches` carries a transition inside
the allowed set: the raw value is kept only when, after trimming, it
exactly equals an allowed name, otherwise the default is substituted. -/
theorem sanitize_transitions_member_allowed (ms : List RawItem)
    (allowed : List (List Char)) (maxId : Int) (reuse : Bool)
    (hdef : defaultTransition ∈ allowed) :
    ∀ r ∈ sanitizeMatches ms allowed maxId reuse, r.transition ∈ allowed :=
  sanitizeGo_transitions_mem allowed maxId reuse hdef ms []

/-- Witness for `sanitize_transitions_member_allowed` at concrete inputs. -/
theorem sanitize_transitions_member_allowed_witness :
    defaultTransition ∈ allowedTransitions
    ∧ ∀ r ∈ sanitizeMatches [.dict ⟨.vint 1, .vint 0, .vstr ['?', '?']⟩,
        .dict ⟨.vint 2, .vnone, .vstr (' ' :: "模糊".toList)⟩] allowedTransitions 4 false,
        r.transition ∈ allowedTransitions :=
  ⟨by decide,
    sanitize_transitions_member_allowed _ allowedTransitions 4 false (by decide)⟩

/-! ### C2: the caption-time round trip -/

theorem digitChar_toNat (d : Nat) : (digitChar d).toNat = 48 + d % 10 := by
  have he : d % 10 < 10 := Nat.mod_lt _ (by omega)
  rw [digitChar]
  set e := d % 10 with hee
  interval_cases e <;> decide

theorem isDigitChar_digitChar (d : Nat) : isDigitChar (digitChar d) = true := by
  have he : d % 10 < 10 := Nat.mod_lt _ (by omega)
  simp [isDigitChar, digitChar_toNat]
  omega

theorem natCharsGo_digits : ∀ (fuel n : Nat), ∀ c ∈ natCharsGo fuel n,
    isDigitChar c = true := by
  intro fuel
  induction fuel with
  | zero => intro n c hc; simp [natCharsGo] at hc
  | succ fuel ih =>
    intro n c hc
    rw [natCharsGo] at hc
    by_cases h : n < 10
    · rw [if_pos h] at hc
      rcases List.mem_singleton.mp hc with rfl
      exact isDigitChar_digitChar n
    · rw [if_neg h] at hc
      rcases List.mem_append.mp hc with h1 | h1
      · exact ih (n / 10) c h1
      · rcases List.mem_singleton.mp h1 with rfl
        exact isDigitChar_digitChar (n % 10)

theorem natChars_digits : ∀ n, ∀ c ∈ natChars n, isDigitChar c = true :=
  fun n => natCharsGo_digits (n + 1) n

theorem digit_toNat_bounds {c : Char} (h : isDigitChar c = true) :
    48 ≤ c.toNat ∧ c.toNat ≤ 57 := by
  simpa [isDigitChar, Bool.and_eq_true, decide_eq_true_eq] using h

theorem digit_ne {c c' : Char} (h : isDigitChar c = true)
    (h' : isDigitChar c' = false) : c ≠ c' := by
  rintro rfl
  rw [h] at h'
  exact absurd h' (by decide)

theorem digit_not_space {c : Char} (h : isDigitChar c = true) : isPySpace c = false := by
  rcases digit_toNat_bounds h with ⟨h1, h2⟩
  rw [isPySpace]
  have hne : ∀ c' : Char, c'.toNat < 48 → ¬(c = c') := by
    intro c' hlt heq
    rw [heq] at h1
    omega
  simp only [Bool.or_eq_false_iff, decide_eq_false_iff_not]
  exact ⟨⟨⟨⟨⟨hne ' ' (by decide), hne '\t' (by decide)⟩, hne '\n' (by decide)⟩,
    hne '\r' (by decide)⟩, hne (Char.ofNat 11) (by decide)⟩, hne (Char.ofNat 12) (by decide)⟩

theorem dropWhile_eq_self_of {p : Char → Bool} :
    ∀ l : List Char, (∀ c ∈ l, p c = false) → l.dropWhile p = l := by
  intro l h
  cases l with
  | nil => rfl
  | cons c cs =>
    rw [List.dropWhile_cons, if_neg]
    rw [h c (List.mem_cons_self c cs)]
    exact Bool.false_ne_true

theorem pyStrip_eq_self {l : List Char} (h : ∀ c ∈ l, isPySpace c = false) :
    pyStrip l = l := by
  rw [pyStrip, dropWhile_eq_self_of l h,
    dropWhile_eq_self_of l.reverse (fun c hc => h c (List.mem_reverse.mp hc)),
    List.reverse_reverse]

theorem map_id_on {f : Char → Char} :
    ∀ l : List Char, (∀ c ∈ l, f c = c) → l.map f = l := by
  intro l h
  induction l with
  | nil => rfl
  | cons c cs ih =>
    rw [List.map_cons, h c (List.mem_cons_self c cs),
      ih (fun x hx => h x (List.mem_cons_of_mem c hx))]

theorem padZero_digits {w : Nat} {l : List Char} (h : ∀ c ∈ l, isDigitChar c = true) :
    ∀ c ∈ padZero w l, isDigitChar c = true := by
  intro c hc
  rcases List.mem_append.mp hc with h1 | h1
  · rcases List.eq_of_mem_replicate h1 with rfl
    decide
  · exact h c h1

theorem padZero_length {w : Nat} {l : List Char} (h : l.length ≤ w) :
    (padZero w l).length = w := by
  simp [padZero]
  omega

theorem natCharsGo_length_le : ∀ (k : Nat), 1 ≤ k → ∀ (fuel n : Nat), n < 10 ^ k →
    (natCharsGo fuel n).length ≤ k := by
  intro k
  induction k with
  | zero => omega
  | succ k ih =>
    intro _ fuel n hlt
    cases fuel with
    | zero => simp [natCharsGo]
    | succ fuel =>
      by_cases h : n < 10
      · rw [natCharsGo, if_pos h]
        simp
      · rw [natCharsGo, if_neg h]
        have hk : 1 ≤ k := by
          by_contra hk0
          have : k = 0 := by omega
          subst this
          simp [pow_succ] at hlt
          omega
        have hdiv : n / 10 < 10 ^ k := by
          rw [Nat.div_lt_iff_lt_mul (by omega)]
          calc n < 10 ^ (k + 1) := hlt
          _ = 10 ^ k * 10 := by ring
        have := ih hk fuel (n / 10) hdiv
        simp only [List.length_append, List.length_cons, List.length_nil]
        omega

theorem natChars_length_le : ∀ (k n : Nat), 1 ≤ k → n < 10 ^ k →
    (natChars n).length ≤ k :=
  fun k n hk hn => natCharsGo_length_le k hk (n + 1) n hn

theorem digitsToNat_snoc (xs : List Char) (c : Char) :
    digitsToNat (xs ++ [c]) = 10 * digitsToNat xs + (c.toNat - 48) := by
  simp [digitsToNat, List.foldl_append]

theorem n_lt_ten_pow (n : Nat) : n < 10 ^ (n + 1) := by
  have h1 : n < 2 ^ n := Nat.lt_two_pow n
  have h2 : 2 ^ n ≤ 10 ^ n := Nat.pow_le_pow_left (by omega) n
  have h3 : 10 ^ n ≤ 10 ^ (n + 1) := Nat.pow_le_pow_right (by omega) (by omega)
  omega

theorem natCharsGo_val : ∀ (fuel n : Nat), n < 10 ^ fuel →
    digitsToNat (natCharsGo fuel n) = n := by
  intro fuel
  induction fuel with
  | zero =>
    intro n hn
    have : n = 0 := by simpa using hn
    subst this
    rfl
  | succ fuel ih =>
    intro n hn
    rw [natCharsGo]
    by_cases h : n < 10
    · rw [if_pos h]
      have : digitsToNat [digitChar n] = (digitChar n).toNat - 48 := by
        simp [digitsToNat]
      rw [this, digitChar_toNat]
      omega
    · have hdiv : n / 10 < 10 ^ fuel := by
        rw [Nat.div_lt_iff_lt_mul (by omega)]
        calc n < 10 ^ (fuel + 1) := hn
        _ = 10 ^ fuel * 10 := by ring
      rw [if_neg h, digitsToNat_snoc, ih (n / 10) hdiv, digitChar_toNat]
      omega

theorem digitsToNat_natChars : ∀ n, digitsToNat (natChars n) = n := by
  intro n
  have h1 : n < 10 ^ (n + 1) := n_lt_ten_pow n
  exact natCharsGo_val (n + 1) n h1

theorem digitsToNat_zeros : ∀ (k : Nat) (l : List Char),
    digitsToNat (List.replicate k '0' ++ l) = digitsToNat l := by
  intro k
  induction k with
  | zero => simp
  | succ k ih =>
    intro l
    have : List.replicate (k + 1) '0' ++ l = '0' :: (List.replicate k '0' ++ l) := by
      simp [List.replicate_succ]
    rw [this]
    have hzero : digitsToNat ('0' :: (List.replicate k '0' ++ l))
        = digitsToNat (List.replicate k '0' ++ l) := by
      simp [digitsToNat]
    rw [hzero, ih]

theorem digitsToNat_padZero (w n : Nat) : digitsToNat (padZero w (natChars n)) = n := by
  rw [padZero, digitsToNat_zeros, digitsToNat_natChars]

theorem splitChar_eq_single {sep : Char} :
    ∀ l : List Char, (∀ c ∈ l, c ≠ sep) → splitChar sep l = [l] := by
  intro l h
  induction l with
  | nil => rfl
  | cons c cs ih =>
    rw [splitChar, if_neg (h c (List.mem_cons_self c cs)),
      ih (fun x hx => h x (List.mem_cons_of_mem c hx))]

theorem splitChar_append {sep : Char} :
    ∀ (a b : List Char), (∀ c ∈ a, c ≠ sep) →
      splitChar sep (a ++ sep :: b) = a :: splitChar sep b := by
  intro a
  induction a with
  | nil => intro b _; simp [splitChar]
  | cons c a' ih =>
    intro b h
    have hcs : splitChar sep (a' ++ sep :: b) = a' :: splitChar sep b :=
      ih b (fun x hx => h x (List.mem_cons_of_mem c hx))
    rw [List.cons_append, splitChar, if_neg (h c (List.mem_cons_self c a')), hcs]

theorem decChars?_digits {l : List Char} (hne : l ≠ [])
    (hd : ∀ c ∈ l, isDigitChar c = true) :
    decChars? l = some (digitsToNat l) := by
  have hdot : ∀ c ∈ l, c ≠ '.' := fun c hc => digit_ne (hd c hc) (by decide)
  rw [decChars?]
  rw [splitChar_eq_single l hdot]
  simp [hne, List.all_eq_true.mpr hd]

theorem decChars?_decimal {a b : List Char} (hna : a ≠ [])
    (ha : ∀ c ∈ a, isDigitChar c = true) (hb : ∀ c ∈ b, isDigitChar c = true) :
    decChars? (a ++ '.' :: b)
      = some ((digitsToNat a : ℚ) + (digitsToNat b : ℚ) / (10 ^ b.length)) := by
  have hdota : ∀ c ∈ a, c ≠ '.' := fun c hc => digit_ne (ha c hc) (by decide)
  have hdotb : ∀ c ∈ b, c ≠ '.' := fun c hc => digit_ne (hb c hc) (by decide)
  rw [decChars?]
  rw [splitChar_append a b hdota, splitChar_eq_single b hdotb]
  simp [hna, List.all_eq_true.mpr ha, List.all_eq_true.mpr hb]

theorem pyFloat?_of_digitish {l : List Char} (hne : l ≠ [])
    (hd : ∀ c ∈ l, isDigitChar c = true ∨ c = '.')
    (hhead : isDigitChar (l.headI) = true) :
    pyFloat? l = (decChars? l).map roundDouble := by
  have hsp : ∀ c ∈ l, isPySpace c = false := by
    intro c hc
    rcases hd c hc with h | rfl
    · exact digit_not_space h
    · decide
  have hstrip : pyStrip l = l := pyStrip_eq_self hsp
  cases l with
  | nil => exact absurd rfl hne
  | cons c cs =>
    have hc : isDigitChar c = true := hhead
    have h1 : c ≠ '-' := digit_ne hc (by decide)
    have h2 : c ≠ '+' := digit_ne hc (by decide)
    simp only [pyFloat?, hstrip]
    rw [if_neg h1, if_neg h2]

theorem natChars_ne_nil (n : Nat) : natChars n ≠ [] := by
  rw [natChars, natCharsGo]
  split <;> simp

theorem padZero_ne_nil {w : Nat} {l : List Char} (h : l ≠ []) : padZero w l ≠ [] := by
  simp [padZero, h]

theorem headI_mem : ∀ {l : List Char}, l ≠ [] → l.headI ∈ l
  | [], h => absurd rfl h
  | c :: cs, _ => List.mem_cons_self c cs

theorem pyFloat?_digits {l : List Char} (hne : l ≠ [])
    (hd : ∀ c ∈ l, isDigitChar c = true) :
    pyFloat? l = some (roundDouble (digitsToNat l)) := by
  rw [pyFloat?_of_digitish hne (fun c hc => Or.inl (hd c hc))
    (hd _ (headI_mem hne)), decChars?_digits hne hd]
  rfl

theorem pyFloat?_decimal {a b : List Char} (hna : a ≠ [])
    (ha : ∀ c ∈ a, isDigitChar c = true) (hb : ∀ c ∈ b, isDigitChar c = true) :
    pyFloat? (a ++ '.' :: b)
      = some (roundDouble ((digitsToNat a : ℚ)
          + (digitsToNat b : ℚ) / (10 ^ b.length))) := by
  have hne : a ++ '.' :: b ≠ [] := by simp
  have hd : ∀ c ∈ a ++ '.' :: b, isDigitChar c = true ∨ c = '.' := by
    intro c hc
    rcases List.mem_append.mp hc with h1 | h1
    · exact Or.inl (ha c h1)
    · rcases List.mem_cons.mp h1 with rfl | h2
      · exact Or.inr rfl
      · exact Or.inl (hb c h2)
  have hhead : isDigitChar ((a ++ '.' :: b).headI) = true := by
    cases a with
    | nil => exact absurd rfl hna
    | cons c a' => exact ha c (List.mem_cons_self c a')
  rw [pyFloat?_of_digitish hne hd hhead, decChars?_decimal hna ha hb]
  rfl

/-! Facts about the binary64 rounding model: `pyRound` moves a rational by
at most `1/2`; `ilog2` brackets a positive rational between consecutive
powers of two (within its 4096-step budget); hence `roundDouble` moves a
rational `q < 2^(d+1)` by at most `2^(d-53)`, and is exact on integers
below `2^53`. -/

theorem pyRound_intCast (z : ℤ) : pyRound ((z : ℤ) : ℚ) = z := by
  simp [pyRound, Int.floor_intCast]

theorem pyRound_abs (q : ℚ) : |(pyRound q : ℚ) - q| ≤ 1 / 2 := by
  have h1 := Int.floor_le q
  have h2 := Int.lt_floor_add_one q
  rw [pyRound]
  split_ifs with ha hb hc
  all_goals rw [abs_le]; push_cast; constructor <;> linarith

theorem pyRound_eq_of_abs_lt {z : ℤ} {q : ℚ} (h : |q - z| < 1 / 2) :
    pyRound q = z := by
  obtain ⟨h1, h2⟩ := abs_lt.mp h
  rcases le_or_lt (z : ℚ) q with hz | hz
  · have hf : ⌊q⌋ = z := Int.floor_eq_iff.mpr ⟨hz, by linarith⟩
    rw [pyRound, hf, if_pos (by linarith)]
  · have hf : ⌊q⌋ = z - 1 := Int.floor_eq_iff.mpr
      ⟨by push_cast; linarith, by push_cast; linarith⟩
    rw [pyRound, hf, if_neg (by push_cast; linarith), if_pos (by push_cast; linarith)]
    omega

theorem ilog2Go_spec : ∀ (fuel : Nat) (q : ℚ) (acc : ℤ), 0 < q →
    (q < 1 → (2:ℚ) ^ (-(fuel : ℤ)) ≤ q) → (2 ≤ q → q < (2:ℚ) ^ ((fuel : ℤ) + 1)) →
    (2:ℚ) ^ (ilog2Go fuel q acc - acc) ≤ q
      ∧ q < (2:ℚ) ^ (ilog2Go fuel q acc - acc + 1)
  | 0, q, acc, hq, hlo, hhi => by
    have h1 : (1:ℚ) ≤ q := by
      by_contra hc
      push_neg at hc
      have := hlo hc
      norm_num at this
      linarith
    have h2 : q < 2 := by
      by_contra hc
      push_neg at hc
      have := hhi hc
      norm_num at this
      linarith
    simp only [ilog2Go, sub_self]
    norm_num
    exact ⟨h1, h2⟩
  | fuel + 1, q, acc, hq, hlo, hhi => by
    simp only [ilog2Go]
    by_cases hq1 : q < 1
    · rw [if_pos hq1]
      have hlo' : q * 2 < 1 → (2:ℚ) ^ (-(fuel : ℤ)) ≤ q * 2 := by
        intro _
        have hstep : (2:ℚ) ^ (-((fuel : ℤ) + 1)) * 2 ≤ q * 2 := by
          have := hlo hq1
          push_cast at this ⊢
          linarith
        calc (2:ℚ) ^ (-(fuel : ℤ)) = (2:ℚ) ^ (-((fuel : ℤ) + 1) + 1) := by ring_nf
          _ = (2:ℚ) ^ (-((fuel : ℤ) + 1)) * 2 := zpow_add_one₀ two_ne_zero _
          _ ≤ q * 2 := hstep
      have hhi' : 2 ≤ q * 2 → q * 2 < (2:ℚ) ^ ((fuel : ℤ) + 1) := by
        intro hc
        linarith
      obtain ⟨hL, hU⟩ := ilog2Go_spec fuel (q * 2) (acc - 1) (by linarith) hlo' hhi'
      set E := ilog2Go fuel (q * 2) (acc - 1) with hE
      have e1 : (2:ℚ) ^ (E - (acc - 1)) = (2:ℚ) ^ (E - acc) * 2 := by
        rw [show E - (acc - 1) = (E - acc) + 1 by ring]
        exact zpow_add_one₀ two_ne_zero _
      have e2 : (2:ℚ) ^ (E - (acc - 1) + 1) = (2:ℚ) ^ (E - acc + 1) * 2 := by
        rw [show E - (acc - 1) + 1 = (E - acc + 1) + 1 by ring]
        exact zpow_add_one₀ two_ne_zero _
      rw [e1] at hL
      rw [e2] at hU
      exact ⟨by linarith, by linarith⟩
    · rw [if_neg hq1]
      by_cases hq2 : 2 ≤ q
      · rw [if_pos hq2]
        have hlo' : q / 2 < 1 → (2:ℚ) ^ (-(fuel : ℤ)) ≤ q / 2 := by
          intro hc
          linarith
        have hhi' : 2 ≤ q / 2 → q / 2 < (2:ℚ) ^ ((fuel : ℤ) + 1) := by
          intro _
          have hc := hhi hq2
          have hstep : (2:ℚ) ^ ((fuel : ℤ) + 1 + 1) = (2:ℚ) ^ ((fuel : ℤ) + 1) * 2 :=
            zpow_add_one₀ two_ne_zero _
          push_cast at hc
          linarith
        obtain ⟨hL, hU⟩ := ilog2Go_spec fuel (q / 2) (acc + 1) (by linarith) hlo' hhi'
        set E := ilog2Go fuel (q / 2) (acc + 1) with hE
        have e1 : (2:ℚ) ^ (E - acc) = (2:ℚ) ^ (E - (acc + 1)) * 2 := by
          rw [show E - acc = (E - (acc + 1)) + 1 by ring]
          exact zpow_add_one₀ two_ne_zero _
        have e2 : (2:ℚ) ^ (E - acc + 1) = (2:ℚ) ^ (E - (acc + 1) + 1) * 2 := by
          rw [show E - acc + 1 = (E - (acc + 1) + 1) + 1 by ring]
          exact zpow_add_one₀ two_ne_zero _
        rw [e1, e2]
        exact ⟨by linarith, by linarith⟩
      · rw [if_neg hq2]
        push_neg at hq1 hq2
        simp only [sub_self]
        norm_num
        exact ⟨hq1, hq2⟩

theorem ilog2_spec {q : ℚ} (h0 : 0 < q) (hlo : (2:ℚ) ^ (-4096 : ℤ) ≤ q)
    (hhi : q < (2:ℚ) ^ (4096 : ℤ)) :
    (2:ℚ) ^ (ilog2 q) ≤ q ∧ q < (2:ℚ) ^ (ilog2 q + 1) := by
  have h := ilog2Go_spec 4096 q 0 h0
    (fun _ => by exact_mod_cast hlo)
    (fun _ => by
      have : (2:ℚ) ^ (4096 : ℤ) ≤ (2:ℚ) ^ ((4096 : ℕ) : ℤ) + 0 := by norm_num
      calc q < (2:ℚ) ^ (4096 : ℤ) := hhi
        _ ≤ (2:ℚ) ^ (((4096 : ℕ) : ℤ) + 1) := zpow_le_zpow_right₀ one_le_two (by norm_num))
  rw [ilog2]
  simpa using h

theorem roundDouble_err {q : ℚ} {d : ℤ} (h0 : 0 < q)
    (hlo : (2:ℚ) ^ (-4096 : ℤ) ≤ q) (hhi : q < (2:ℚ) ^ (d + 1)) (hd : d ≤ 4095) :
    |roundDouble q - q| ≤ (2:ℚ) ^ (d - 53) := by
  have hhi' : q < (2:ℚ) ^ (4096 : ℤ) :=
    lt_of_lt_of_le hhi (zpow_le_zpow_right₀ one_le_two (by omega))
  obtain ⟨hL, hU⟩ := ilog2_spec h0 hlo hhi'
  have hed : ilog2 q ≤ d := by
    by_contra hcon
    push_neg at hcon
    have : (2:ℚ) ^ (d + 1) ≤ (2:ℚ) ^ (ilog2 q) :=
      zpow_le_zpow_right₀ one_le_two (by omega)
    linarith
  have hne : q ≠ 0 := ne_of_gt h0
  have hnlt : ¬ q < 0 := not_lt.mpr h0.le
  rw [roundDouble, if_neg hne, if_neg hnlt]
  have hpos : (0:ℚ) < 2 ^ ((52 : ℤ) - ilog2 q) := zpow_pos (by norm_num) _
  have hqx : (pyRound (q * 2 ^ ((52 : ℤ) - ilog2 q)) : ℚ) / 2 ^ ((52 : ℤ) - ilog2 q) - q
      = ((pyRound (q * 2 ^ ((52 : ℤ) - ilog2 q)) : ℚ) - q * 2 ^ ((52 : ℤ) - ilog2 q))
          / 2 ^ ((52 : ℤ) - ilog2 q) := by
    field_simp
    ring
  rw [hqx, abs_div, abs_of_pos hpos]
  have hbound := pyRound_abs (q * 2 ^ ((52 : ℤ) - ilog2 q))
  calc |(pyRound (q * 2 ^ ((52 : ℤ) - ilog2 q)) : ℚ) - q * 2 ^ ((52 : ℤ) - ilog2 q)|
        / 2 ^ ((52 : ℤ) - ilog2 q)
      ≤ (1 / 2) / 2 ^ ((52 : ℤ) - ilog2 q) := by gcongr
    _ = (2:ℚ) ^ (ilog2 q - 53) := by
        rw [div_div]
        have htwo : (2:ℚ) * 2 ^ ((52 : ℤ) - ilog2 q) = 2 ^ ((53 : ℤ) - ilog2 q) := by
          rw [show (53 : ℤ) - ilog2 q = ((52 : ℤ) - ilog2 q) + 1 by ring,
            zpow_add_one₀ two_ne_zero]
          ring
        rw [htwo, one_div, ← zpow_neg]
        congr 1
        ring
    _ ≤ (2:ℚ) ^ (d - 53) := zpow_le_zpow_right₀ one_le_two (by omega)

theorem roundDouble_err' {q : ℚ} {d : ℤ} (h0 : 0 ≤ q)
    (hlo : q = 0 ∨ (2:ℚ) ^ (-4096 : ℤ) ≤ q) (hhi : q < (2:ℚ) ^ (d + 1)) (hd : d ≤ 4095) :
    |roundDouble q - q| ≤ (2:ℚ) ^ (d - 53) := by
  rcases hlo with hz | hlo
  · subst hz
    rw [roundDouble, if_pos rfl]
    simp only [sub_zero, abs_zero]
    exact le_of_lt (zpow_pos (by norm_num) _)
  · rcases eq_or_lt_of_le h0 with h0' | h0'
    · rw [← h0', roundDouble, if_pos rfl]
      simp only [sub_zero, abs_zero]
      exact le_of_lt (zpow_pos (by norm_num) _)
    · exact roundDouble_err h0' hlo hhi hd

theorem ilog2_eq {q : ℚ} {e : ℤ} (hL : (2:ℚ) ^ e ≤ q) (hU : q < (2:ℚ) ^ (e + 1))
    (he1 : -4096 ≤ e) (he2 : e ≤ 4095) : ilog2 q = e := by
  have h0 : 0 < q := lt_of_lt_of_le (zpow_pos (by norm_num) e) hL
  have hlo : (2:ℚ) ^ (-4096 : ℤ) ≤ q :=
    le_trans (zpow_le_zpow_right₀ one_le_two (by omega)) hL
  have hhi : q < (2:ℚ) ^ (4096 : ℤ) :=
    lt_of_lt_of_le hU (zpow_le_zpow_right₀ one_le_two (by omega))
  obtain ⟨hL', hU'⟩ := ilog2_spec h0 hlo hhi
  by_contra hne
  rcases lt_or_gt_of_ne hne with hlt | hgt
  · have : (2:ℚ) ^ (ilog2 q + 1) ≤ (2:ℚ) ^ e :=
      zpow_le_zpow_right₀ one_le_two (by omega)
    linarith
  · have : (2:ℚ) ^ (e + 1) ≤ (2:ℚ) ^ (ilog2 q) :=
      zpow_le_zpow_right₀ one_le_two (by omega)
    linarith

theorem roundDouble_eq_of {q : ℚ} {e : ℤ} (hL : (2:ℚ) ^ e ≤ q)
    (hU : q < (2:ℚ) ^ (e + 1)) (he1 : -4096 ≤ e) (he2 : e ≤ 4095) :
    roundDouble q
      = (pyRound (q * 2 ^ ((52 : ℤ) - e)) : ℚ) / 2 ^ ((52 : ℤ) - e) := by
  have h0 : 0 < q := lt_of_lt_of_le (zpow_pos (by norm_num) e) hL
  rw [roundDouble, if_neg (ne_of_gt h0), if_neg (not_lt.mpr h0.le),
    ilog2_eq hL hU he1 he2]

theorem roundDouble_intCast {n : ℤ} (h0 : 0 ≤ n) (hn : n < 2 ^ 53) :
    roundDouble ((n : ℤ) : ℚ) = n := by
  rcases eq_or_lt_of_le h0 with h0' | h0'
  · rw [← h0']
    norm_num [roundDouble]
  · have hq : (0:ℚ) < (n : ℚ) := by exact_mod_cast h0'
    have hq1 : (1:ℚ) ≤ (n : ℚ) := by exact_mod_cast h0'
    have hlo : (2:ℚ) ^ (-4096 : ℤ) ≤ (n : ℚ) := by
      calc (2:ℚ) ^ (-4096 : ℤ) ≤ (2:ℚ) ^ (0 : ℤ) :=
            zpow_le_zpow_right₀ one_le_two (by omega)
        _ = 1 := by norm_num
        _ ≤ (n : ℚ) := hq1
    have hhi53 : (n : ℚ) < (2:ℚ) ^ (53 : ℤ) := by
      have : ((n : ℤ) : ℚ) < (((2 ^ 53 : ℤ)) : ℚ) := by exact_mod_cast hn
      calc (n : ℚ) < (((2 ^ 53 : ℤ)) : ℚ) := this
        _ = (2:ℚ) ^ (53 : ℤ) := by push_cast; norm_num
    have hhi : (n : ℚ) < (2:ℚ) ^ (4096 : ℤ) :=
      lt_of_lt_of_le hhi53 (zpow_le_zpow_right₀ one_le_two (by omega))
    obtain ⟨hL, hU⟩ := ilog2_spec hq hlo hhi
    have he0 : 0 ≤ ilog2 (n : ℚ) := by
      by_contra hcon
      push_neg at hcon
      have : (2:ℚ) ^ (ilog2 (n : ℚ) + 1) ≤ (2:ℚ) ^ (0 : ℤ) :=
        zpow_le_zpow_right₀ one_le_two (by omega)
      norm_num at this
      linarith
    have he52 : ilog2 (n : ℚ) ≤ 52 := by
      by_contra hcon
      push_neg at hcon
      have : (2:ℚ) ^ (53 : ℤ) ≤ (2:ℚ) ^ (ilog2 (n : ℚ)) :=
        zpow_le_zpow_right₀ one_le_two (by omega)
      linarith
    have hne : ((n : ℤ) : ℚ) ≠ 0 := ne_of_gt hq
    have hnlt : ¬ ((n : ℤ) : ℚ) < 0 := not_lt.mpr hq.le
    rw [roundDouble, if_neg hne, if_neg hnlt]
    have hkk : ((52 - ilog2 (n : ℚ)).toNat : ℤ) = 52 - ilog2 (n : ℚ) :=
      Int.toNat_of_nonneg (by omega)
    have hxz : ((n : ℤ) : ℚ) * 2 ^ ((52 : ℤ) - ilog2 ((n : ℤ) : ℚ))
        = (((n * 2 ^ (52 - ilog2 (n : ℚ)).toNat : ℤ)) : ℚ) := by
      push_cast
      rw [← zpow_natCast (2:ℚ) (52 - ilog2 (n : ℚ)).toNat, hkk]
    rw [hxz, pyRound_intCast]
    rw [← hxz]
    exact mul_div_cancel_right₀ _ (ne_of_gt (zpow_pos (by norm_num) _))

theorem roundDouble_natCast {n : ℕ} (hn : n < 2 ^ 53) :
    roundDouble ((n : ℕ) : ℚ) = n := by
  have h := roundDouble_intCast (n := (n : ℤ)) (by positivity) (by exact_mod_cast hn)
  push_cast at h ⊢
  exact h

theorem parseTime_timeString (h m s ms : Nat) (hms : ms < 1000) :
    parseTime? (timeString h m s ms)
      = some (fadd (fadd (fmul (roundDouble (h : ℚ)) 3600) (fmul (roundDouble (m : ℚ)) 60))
          (roundDouble ((s : ℚ) + (ms : ℚ) / 1000))) := by
  have hA := padZero_digits (w := 2) (natChars_digits h)
  have hB := padZero_digits (w := 2) (natChars_digits m)
  have hC := padZero_digits (w := 2) (natChars_digits s)
  have hD := padZero_digits (w := 3) (natChars_digits ms)
  have hAne : padZero 2 (natChars h) ≠ [] := padZero_ne_nil (natChars_ne_nil h)
  have hBne : padZero 2 (natChars m) ≠ [] := padZero_ne_nil (natChars_ne_nil m)
  have hCne : padZero 2 (natChars s) ≠ [] := padZero_ne_nil (natChars_ne_nil s)
  have hmap : ∀ (l : List Char), (∀ c ∈ l, isDigitChar c = true) →
      l.map (fun c => if c = ',' then '.' else c) = l := by
    intro l hl
    refine map_id_on l (fun c hc => ?_)
    rw [if_neg (digit_ne (hl c hc) (by decide))]
  have hcolon : (if ':' = ',' then '.' else ':') = ':' := by decide
  have hcomma : (if ',' = ',' then '.' else ',') = '.' := by decide
  have hmapped : (timeString h m s ms).map (fun c => if c = ',' then '.' else c)
      = padZero 2 (natChars h) ++ ':' :: (padZero 2 (natChars m)
          ++ ':' :: (padZero 2 (natChars s) ++ '.' :: padZero 3 (natChars ms))) := by
    rw [timeString]
    simp only [List.map_append, List.map_cons]
    rw [hmap _ hA, hmap _ hB, hmap _ hC, hmap _ hD, hcolon]
    simp
  have hsplit : splitChar ':' (padZero 2 (natChars h) ++ ':' :: (padZero 2 (natChars m)
      ++ ':' :: (padZero 2 (natChars s) ++ '.' :: padZero 3 (natChars ms))))
      = [padZero 2 (natChars h), padZero 2 (natChars m),
          padZero 2 (natChars s) ++ '.' :: padZero 3 (natChars ms)] := by
    rw [splitChar_append _ _ (fun c hc => digit_ne (hA c hc) (by decide)),
      splitChar_append _ _ (fun c hc => digit_ne (hB c hc) (by decide)),
      splitChar_eq_single _ (fun c hc => ?_)]
    rcases List.mem_append.mp hc with h1 | h1
    · exact digit_ne (hC c h1) (by decide)
    · rcases List.mem_cons.mp h1 with rfl | h2
      · decide
      · exact digit_ne (hD c h2) (by decide)
  have hlen : (padZero 3 (natChars ms)).length = 3 :=
    padZero_length (natChars_length_le 3 ms (by omega) (by norm_num; omega))
  simp only [parseTime?]
  rw [hmapped, hsplit]
  simp [pyFloat?_digits hAne hA, pyFloat?_digits hBne hB, pyFloat?_decimal hCne hC hD,
    digitsToNat_padZero, hlen]
  norm_num

theorem pyRound_natCast (n : Nat) : pyRound ((n : Nat) : ℚ) = (n : Int) := by
  rw [pyRound]
  have hf : ⌊((n : Nat) : ℚ)⌋ = (n : Int) := Int.floor_natCast n
  rw [hf]
  norm_num

theorem int_fdiv_natCast (a b : Nat) :
    Int.fdiv ((a : Nat) : Int) ((b : Nat) : Int) = (((a / b : Nat)) : Int) :=
  (Int.ofNat_fdiv a b).symm

theorem int_fmod_natCast (a b : Nat) :
    Int.fmod ((a : Nat) : Int) ((b : Nat) : Int) = (((a % b : Nat)) : Int) :=
  (Int.ofNat_fmod a b).symm

theorem intChars_natCast (n : Nat) : intChars ((n : Nat) : Int) = natChars n := by
  rw [intChars, if_neg (by omega), Int.toNat_natCast]

theorem formatSrt_parts (h m s ms : Nat) (hm : m < 60) (hs : s < 60) (hms : ms < 1000)
    {q : ℚ}
    (hq : pyRound (fmul q 1000)
      = ((h * 3600000 + m * 60000 + s * 1000 + ms : Nat) : Int)) :
    formatSrtTimestamp q = timeString h m s ms := by
  simp only [formatSrtTimestamp]
  rw [hq]
  rw [show (1000 : Int) = ((1000 : Nat) : Int) from rfl,
    show (60 : Int) = ((60 : Nat) : Int) from rfl]
  simp only [int_fdiv_natCast, int_fmod_natCast, intChars_natCast]
  have e1 : (h * 3600000 + m * 60000 + s * 1000 + ms) / 1000 / 60 / 60 = h := by omega
  have e2 : (h * 3600000 + m * 60000 + s * 1000 + ms) / 1000 / 60 % 60 = m := by omega
  have e3 : (h * 3600000 + m * 60000 + s * 1000 + ms) / 1000 % 60 = s := by omega
  have e4 : (h * 3600000 + m * 60000 + s * 1000 + ms) % 1000 = ms := by omega
  rw [e1, e2, e3, e4, timeString]

/-- **C2 counterexample.** The round-trip law fails beyond the reach of
binary64: `_parse_time("4000000000:00:00,001")` stores an inexact double
(the exact value `4000000000*3600 + 0.001` is not representable), and
`format_srt_timestamp` of that double yields `"4000000000:00:00,002"`,
not the original string.  So `format(parse(t)) == t` does not hold for
every well-formed non-negative millisecond-resolution time string. -/
theorem srt_round_trip_fails_at_large_hours :
    (parseTime? ("4000000000:00:00,001".toList)).map formatSrtTimestamp
        = some ("4000000000:00:00,002".toList)
    ∧ (parseTime? ("4000000000:00:00,001".toList)).map formatSrtTimestamp
        ≠ some ("4000000000:00:00,001".toList) := by
  have hsplit : splitChar ':' (("4000000000:00:00,001".toList).map
      fun c => if c = ',' then '.' else c)
      = ["4000000000".toList, "00".toList, "00.001".toList] := by decide
  have hd1 : ((digitsToNat ("4000000000".toList) : ℕ) : ℚ) = 4000000000 := by
    rw [show digitsToNat ("4000000000".toList) = 4000000000 from by decide]
    norm_num
  have hd2 : ((digitsToNat ("00".toList) : ℕ) : ℚ) = 0 := by
    rw [show digitsToNat ("00".toList) = 0 from by decide]
    norm_num
  have hd3 : ((digitsToNat ("001".toList) : ℕ) : ℚ) = 1 := by
    rw [show digitsToNat ("001".toList) = 1 from by decide]
    norm_num
  have hrd0 : roundDouble 0 = 0 := by simp [roundDouble]
  have hf1 : pyFloat? ("4000000000".toList) = some (roundDouble 4000000000) := by
    rw [pyFloat?_digits (by decide) (by decide), hd1]
  have hf2 : pyFloat? ("00".toList) = some 0 := by
    rw [pyFloat?_digits (by decide) (by decide), hd2, hrd0]
  have hf3 : pyFloat? ("00.001".toList) = some (roundDouble (1 / 1000)) := by
    rw [show ("00.001".toList) = ("00".toList) ++ '.' :: ("001".toList) from by decide]
    rw [pyFloat?_decimal (by decide) (by decide) (by decide), hd2, hd3,
      show ("001".toList).length = 3 from by decide]
    norm_num
  have hpr1 : pyRound ((4611686018427387904 : ℚ) / 1000) = 4611686018427388 :=
    pyRound_eq_of_abs_lt (by rw [abs_lt]; constructor <;> norm_num)
  have hprA : pyRound ((16602069666338597607321504606847 : ℚ) / 2251799813685248)
      = 7372800000000001 :=
    pyRound_eq_of_abs_lt (by rw [abs_lt]; constructor <;> norm_num)
  have hprB : pyRound ((921600000000000125 : ℚ) / 128) = 7200000000000001 :=
    pyRound_eq_of_abs_lt (by rw [abs_lt]; constructor <;> norm_num)
  have hpr2 : pyRound ((14400000000000002 : ℚ)) = 14400000000000002 :=
    pyRound_eq_of_abs_lt (by rw [abs_lt]; constructor <;> norm_num)
  have hr0 : roundDouble (4000000000 : ℚ) = 4000000000 := by
    have h := roundDouble_natCast (n := 4000000000) (by norm_num)
    push_cast at h
    exact h
  have hr2 : roundDouble ((1 : ℚ) / 1000)
      = 4611686018427388 / 4611686018427387904 := by
    rw [roundDouble_eq_of (e := -10) (by norm_num) (by norm_num) (by norm_num)
      (by norm_num)]
    rw [show (1 : ℚ) / 1000 * 2 ^ ((52 : ℤ) - (-10)) = 4611686018427387904 / 1000
      from by norm_num]
    rw [hpr1]
    norm_num
  have hfmulA : fmul (4000000000 : ℚ) 3600 = 14400000000000 := by
    simp only [fmul]
    rw [show (4000000000 : ℚ) * 3600 = ((14400000000000 : ℕ) : ℚ) from by norm_num]
    rw [roundDouble_natCast (by norm_num)]
    norm_num
  have hfmulB : fmul (0 : ℚ) 60 = 0 := by
    simp only [fmul]
    rw [show (0 : ℚ) * 60 = 0 from by norm_num]
    exact hrd0
  have hfaddA : fadd (14400000000000 : ℚ) 0 = 14400000000000 := by
    simp only [fadd]
    rw [show (14400000000000 : ℚ) + 0 = ((14400000000000 : ℕ) : ℚ) from by norm_num]
    rw [roundDouble_natCast (by norm_num)]
    norm_num
  have hzv : fadd (14400000000000 : ℚ) (4611686018427388 / 4611686018427387904)
      = 7372800000000001 / 512 := by
    simp only [fadd]
    rw [show (14400000000000 : ℚ) + 4611686018427388 / 4611686018427387904
        = 16602069666338597607321504606847 / 1152921504606846976 from by norm_num]
    rw [roundDouble_eq_of (e := 43) (by norm_num) (by norm_num) (by norm_num)
      (by norm_num)]
    rw [show (16602069666338597607321504606847 : ℚ) / 1152921504606846976
        * 2 ^ ((52 : ℤ) - 43)
        = 16602069666338597607321504606847 / 2251799813685248 from by norm_num]
    rw [hprA]
    norm_num
  have hfmulZ : fmul ((7372800000000001 : ℚ) / 512) 1000 = 14400000000000002 := by
    simp only [fmul]
    rw [show (7372800000000001 : ℚ) / 512 * 1000 = 921600000000000125 / 64
      from by norm_num]
    rw [roundDouble_eq_of (e := 53) (by norm_num) (by norm_num) (by norm_num)
      (by norm_num)]
    rw [show (921600000000000125 : ℚ) / 64 * 2 ^ ((52 : ℤ) - 53)
        = 921600000000000125 / 128 from by norm_num]
    rw [hprB]
    norm_num
  have hpt : parseTime? ("4000000000:00:00,001".toList)
      = some ((7372800000000001 : ℚ) / 512) := by
    simp only [parseTime?]
    rw [hsplit]
    simp only [hf1, hf2, hf3, Option.bind_eq_bind, Option.some_bind]
    rw [hr0, hfmulA, hfmulB, hfaddA, hr2, hzv]
    rfl
  have hfmt : formatSrtTimestamp ((7372800000000001 : ℚ) / 512)
      = "4000000000:00:00,002".toList := by
    simp only [formatSrtTimestamp]
    rw [hfmulZ, hpr2]
    decide
  have h1 : (parseTime? ("4000000000:00:00,001".toList)).map formatSrtTimestamp
      = some ("4000000000:00:00,002".toList) := by
    rw [hpt]
    exact congrArg some hfmt
  refine ⟨h1, ?_⟩
  rw [h1]
  intro hc
  exact absurd (Option.some.inj hc) (by decide)

/-- **C2 (amended).** Round-trip law restricted to the float-exact range:
for every well-formed, non-negative, millisecond-resolution caption time
string (canonical `H:MM:SS,mmm` with `M`, `S`, `mmm` zero-padded, `H`
zero-padded to at least two digits) whose hour count is below `2^20`
(i.e. captions up to ~119 years), formatting the parsed value reproduces
the string exactly: `format_srt_timestamp(_parse_time(t)) == t`.  Float
arithmetic is modelled as correctly-rounded binary64 over the rationals;
the accumulated rounding error is below half a millisecond in this
range, so the final `int(round(seconds*1000.0))` recovers the exact
millisecond count. -/
theorem srt_timestamp_round_trip_bounded (h m s ms : Nat) (hh : h < 1048576)
    (hm : m < 60) (hs : s < 60) (hms : ms < 1000) :
    (parseTime? (timeString h m s ms)).map formatSrtTimestamp
      = some (timeString h m s ms) := by
  have e48 : (2:ℚ) ^ ((5:ℤ) - 53) = 1 / 281474976710656 := by norm_num
  have e22 : (2:ℚ) ^ ((31:ℤ) - 53) = 1 / 4194304 := by norm_num
  have e12 : (2:ℚ) ^ ((41:ℤ) - 53) = 1 / 4096 := by norm_num
  have p6 : (2:ℚ) ^ ((5:ℤ) + 1) = 64 := by norm_num
  have p32 : (2:ℚ) ^ ((31:ℤ) + 1) = 4294967296 := by norm_num
  have p42 : (2:ℚ) ^ ((41:ℤ) + 1) = 4398046511104 := by norm_num
  have hreach : (2:ℚ) ^ (-4096 : ℤ) ≤ 1 / 4194304 := by
    calc (2:ℚ) ^ (-4096 : ℤ) ≤ (2:ℚ) ^ ((31:ℤ) - 53) :=
          zpow_le_zpow_right₀ one_le_two (by omega)
      _ = 1 / 4194304 := e22
  have hrh : roundDouble ((h : ℕ) : ℚ) = (h : ℚ) :=
    roundDouble_natCast (lt_of_lt_of_le hh (by norm_num))
  have hrm : roundDouble ((m : ℕ) : ℚ) = (m : ℚ) :=
    roundDouble_natCast (lt_trans hm (by norm_num))
  have hX : fmul ((h : ℚ)) 3600 = ((h * 3600 : ℕ) : ℚ) := by
    rw [fmul, show ((h:ℚ) * 3600) = ((h * 3600 : ℕ) : ℚ) by push_cast; ring]
    refine roundDouble_natCast ?_
    have hb : h * 3600 < 3774873600 := by omega
    exact lt_of_lt_of_le hb (by norm_num)
  have hY : fmul ((m : ℚ)) 60 = ((m * 60 : ℕ) : ℚ) := by
    rw [fmul, show ((m:ℚ) * 60) = ((m * 60 : ℕ) : ℚ) by push_cast; ring]
    refine roundDouble_natCast ?_
    have hb : m * 60 < 3600 := by omega
    exact lt_of_lt_of_le hb (by norm_num)
  have hA : fadd ((h * 3600 : ℕ) : ℚ) ((m * 60 : ℕ) : ℚ)
      = ((h * 3600 + m * 60 : ℕ) : ℚ) := by
    rw [fadd, show (((h * 3600 : ℕ):ℚ) + ((m * 60 : ℕ):ℚ))
        = ((h * 3600 + m * 60 : ℕ) : ℚ) by push_cast; ring]
    refine roundDouble_natCast ?_
    have hb : h * 3600 + m * 60 < 3774877200 := by omega
    exact lt_of_lt_of_le hb (by norm_num)
  rw [parseTime_timeString h m s ms hms]
  refine congrArg some (formatSrt_parts h m s ms hm hs hms ?_)
  rw [hrh, hrm, hX, hY, hA]
  simp only [fadd, fmul]
  set t : ℚ := (s : ℚ) + (ms : ℚ) / 1000 with ht
  set f : ℚ := roundDouble t with hf
  set I : ℕ := h * 3600 + m * 60 with hI
  clear_value t f I
  have htv : t = ((s * 1000 + ms : ℕ) : ℚ) / 1000 := by rw [ht]; push_cast; ring
  have ht0 : 0 ≤ t := by rw [ht]; positivity
  have ht64 : t < 64 := by
    have h1 : (s:ℚ) < 60 := by exact_mod_cast hs
    have h2 : (ms:ℚ) < 1000 := by exact_mod_cast hms
    have h3 : (0:ℚ) ≤ (ms:ℚ) := by positivity
    rw [ht]; linarith
  have ht_hi : t < (2:ℚ) ^ ((5:ℤ) + 1) := by rw [p6]; exact ht64
  have ht_lo : t = 0 ∨ (1:ℚ) / 1000 ≤ t := by
    rcases Nat.eq_zero_or_pos (s * 1000 + ms) with hz | hpos
    · left; rw [htv, hz]; norm_num
    · right
      rw [htv]
      gcongr
      exact_mod_cast hpos
  have hferr : |f - t| ≤ (2:ℚ) ^ ((5:ℤ) - 53) := by
    rw [hf]
    refine roundDouble_err' ht0 ?_ ht_hi (by omega)
    rcases ht_lo with h' | h'
    · exact Or.inl h'
    · right
      calc (2:ℚ) ^ (-4096:ℤ) ≤ 1 / 4194304 := hreach
        _ ≤ 1 / 1000 := by norm_num
        _ ≤ t := h'
  rw [e48] at hferr
  have habs := abs_le.mp hferr
  have hfge : 0 ≤ f := by
    rcases ht_lo with h' | h'
    · rw [hf, h', roundDouble]; simp
    · linarith [habs.1]
  have hIb : I < 3774877200 := by omega
  have hIq : (I:ℚ) < 3774877200 := by exact_mod_cast hIb
  have hu0 : 0 ≤ (I:ℚ) + f := by
    have hI0 : (0:ℚ) ≤ (I:ℚ) := Nat.cast_nonneg I
    linarith
  have hu_hi : (I:ℚ) + f < (2:ℚ) ^ ((31:ℤ) + 1) := by
    rw [p32]
    linarith [habs.2]
  have hu_lo : (I:ℚ) + f = 0 ∨ (1:ℚ) / 1024 ≤ (I:ℚ) + f := by
    rcases ht_lo with h' | h'
    · have hf0 : f = 0 := by rw [hf, h', roundDouble]; simp
      rcases Nat.eq_zero_or_pos I with hIz | hIpos
      · left; rw [hIz, hf0]; norm_num
      · right
        have h1 : (1:ℚ) ≤ (I:ℚ) := by exact_mod_cast hIpos
        rw [hf0]; linarith
    · right
      have hI0 : (0:ℚ) ≤ (I:ℚ) := Nat.cast_nonneg I
      linarith [habs.1]
  have hzerr : |roundDouble ((I:ℚ) + f) - ((I:ℚ) + f)| ≤ (2:ℚ) ^ ((31:ℤ) - 53) := by
    refine roundDouble_err' hu0 ?_ hu_hi (by omega)
    rcases hu_lo with h' | h'
    · exact Or.inl h'
    · right
      calc (2:ℚ) ^ (-4096:ℤ) ≤ 1 / 4194304 := hreach
        _ ≤ 1 / 1024 := by norm_num
        _ ≤ _ := h'
  rw [e22] at hzerr
  set z : ℚ := roundDouble ((I:ℚ) + f) with hz
  clear_value z
  have hzabs := abs_le.mp hzerr
  rcases hu_lo with hu' | hu'
  · have hIle : (I:ℚ) ≤ 0 := by linarith
    have hIq0 : (I:ℚ) = 0 := le_antisymm hIle (Nat.cast_nonneg I)
    have hInat : I = 0 := by exact_mod_cast hIq0
    have hfeq : f = 0 := by linarith
    have ht0' : t = 0 := by
      rcases ht_lo with h' | h'
      · exact h'
      · exfalso; linarith [habs.1]
    have hsms : s * 1000 + ms = 0 := by
      have hq0 : ((s * 1000 + ms : ℕ) : ℚ) = 0 := by
        have h1000 : ((s * 1000 + ms : ℕ) : ℚ) = t * 1000 := by rw [htv]; ring
        rw [h1000, ht0']; ring
      exact_mod_cast hq0
    have hz0 : z = 0 := by rw [hz, hu', roundDouble]; simp
    rw [hz0]
    have hN0 : h * 3600000 + m * 60000 + s * 1000 + ms = 0 := by omega
    rw [hN0]
    norm_num [roundDouble, pyRound]
  · have hz_lo : (1:ℚ) / 2048 ≤ z := by linarith [hzabs.1]
    have hu_hi' : (I:ℚ) + f < 4294967296 := by rw [p32] at hu_hi; exact hu_hi
    have hz_hi : z < 4294967297 := by linarith [hzabs.2]
    have hv0 : 0 ≤ z * 1000 := by linarith
    have hv_hi : z * 1000 < (2:ℚ) ^ ((41:ℤ) + 1) := by rw [p42]; linarith
    have hv_lo : (2:ℚ) ^ (-4096:ℤ) ≤ z * 1000 := by
      calc (2:ℚ) ^ (-4096:ℤ) ≤ 1 / 4194304 := hreach
        _ ≤ (1 / 2048) * 1000 := by norm_num
        _ ≤ z * 1000 := by linarith
    have hwerr : |roundDouble (z * 1000) - z * 1000| ≤ (2:ℚ) ^ ((41:ℤ) - 53) :=
      roundDouble_err' hv0 (Or.inr hv_lo) hv_hi (by omega)
    rw [e12] at hwerr
    have hwabs := abs_le.mp hwerr
    have hNval : ((h * 3600000 + m * 60000 + s * 1000 + ms : ℕ) : ℚ)
        = 1000 * (I:ℚ) + 1000 * t := by
      have hIcast : (I:ℚ) = (h:ℚ) * 3600 + (m:ℚ) * 60 := by rw [hI]; push_cast; ring
      rw [hIcast, ht]; push_cast; ring
    have hfin : |roundDouble (z * 1000)
        - ((h * 3600000 + m * 60000 + s * 1000 + ms : ℕ) : ℚ)| < 1 / 2 := by
      rw [hNval, abs_lt]
      constructor <;> linarith [habs.1, habs.2, hzabs.1, hzabs.2, hwabs.1, hwabs.2]
    have hcast : (((h * 3600000 + m * 60000 + s * 1000 + ms : ℕ) : ℤ) : ℚ)
        = ((h * 3600000 + m * 60000 + s * 1000 + ms : ℕ) : ℚ) := by push_cast; ring
    refine pyRound_eq_of_abs_lt ?_
    rw [hcast]
    exact hfin

/-- Witness for `srt_timestamp_round_trip_bounded` at `101:02:03,045`. -/
theorem srt_timestamp_round_trip_bounded_witness :
    (101 : Nat) < 1048576 ∧ (2 : Nat) < 60 ∧ (3 : Nat) < 60 ∧ (45 : Nat) < 1000
    ∧ (parseTime? (timeString 101 2 3 45)).map formatSrtTimestamp
        = some (timeString 101 2 3 45) :=
  ⟨by omega, by omega, by omega, by omega,
    srt_timestamp_round_trip_bounded 101 2 3 45 (by omega) (by omega) (by omega) (by omega)⟩

/-! ### C3: SRT parsing never raises — refuted -/

theorem parseBlocks_ok_of_safe :
    ∀ (fuel : Nat) (lines : List (List Char)),
      (∀ l ∈ lines, lineSafe l = true ∧ idxLineSafe l = true) →
      ∃ items, parseBlocks fuel lines = .ok items := by
  intro fuel
  induction fuel with
  | zero => intro lines _; exact ⟨[], rfl⟩
  | succ n ih =>
    intro lines hsafe
    cases lines with
    | nil => exact ⟨[], rfl⟩
    | cons l rest =>
      by_cases hd : isDigitLine l
      · cases rest with
        | nil => exact ⟨[], by simp [parseBlocks, hd]⟩
        | cons tl rest2 =>
          by_cases ha : containsArrow tl
          · have htl : lineSafe tl = true :=
              (hsafe tl (List.mem_cons_of_mem l (List.mem_cons_self tl rest2))).1
            have hidx : l.all isDigitChar = true := by
              have h2 := (hsafe l (List.mem_cons_self l (tl :: rest2))).2
              rw [idxLineSafe, hd] at h2
              simpa using h2
            have hint : intOfDigitLine? l = some (digitsToNat l) := by
              rw [intOfDigitLine?, if_pos hidx]
            rcases hsp : splitOnArrow tl with _ | ⟨a, _ | ⟨b, tail⟩⟩
            · rw [containsArrow, hsp] at ha; simp at ha
            · rw [containsArrow, hsp] at ha; simp at ha
            · rw [lineSafe, hsp, Bool.and_eq_true] at htl
              rcases Option.isSome_iff_exists.mp htl.1 with ⟨st, hst⟩
              rcases Option.isSome_iff_exists.mp htl.2 with ⟨en, hen⟩
              have hsafe3 : ∀ x ∈ rest2.dropWhile fun x => x ≠ [] && !isDigitLine x,
                  lineSafe x = true ∧ idxLineSafe x = true := by
                intro x hx
                have hx2 : x ∈ rest2 := (List.dropWhile_sublist _).subset hx
                exact hsafe x (List.mem_cons_of_mem l (List.mem_cons_of_mem tl hx2))
              rcases ih _ hsafe3 with ⟨items, hit⟩
              simp only [ne_eq, decide_not] at hit
              refine ⟨⟨digitsToNat l, st, en,
                joinText (rest2.takeWhile fun x => x ≠ [] && !isDigitLine x)⟩ :: items, ?_⟩
              simp [parseBlocks, hd, ha, hint, hsp, hst, hen, hit]
              rfl
          · have hrec : parseBlocks (n + 1) (l :: tl :: rest2)
                = parseBlocks n (tl :: rest2) := by
              simp [parseBlocks, hd, ha]
            rw [hrec]
            refine ih (tl :: rest2) ?_
            intro x hx; exact hsafe x (List.mem_cons_of_mem l hx)
      · have hrec : parseBlocks (n + 1) (l :: rest) = parseBlocks n rest := by
          simp [parseBlocks, hd]
        rw [hrec]
        refine ih rest ?_
        intro x hx; exact hsafe x (List.mem_cons_of_mem l hx)

theorem digit_plain {c : Char} (h : isDigitChar c = true) :
    ¬(c = '"') ∧ ¬(c = '{') ∧ ¬(c = '[') ∧ ¬(c = '}') ∧ ¬(c = ']') :=
  ⟨digit_ne h (by decide), digit_ne h (by decide), digit_ne h (by decide),
    digit_ne h (by decide), digit_ne h (by decide)⟩

theorem scanFrom_plain_seg :
    ∀ (seg : List Char),
      (∀ c ∈ seg, ¬(c = '"') ∧ ¬(c = '{') ∧ ¬(c = '[') ∧ ¬(c = '}') ∧ ¬(c = ']')) →
      ∀ (rest stack : List Char) (i : Nat),
        scanFrom (seg ++ rest) stack false false i
          = scanFrom rest stack false false (i + seg.length)
  | [], _, rest, stack, i => by simp
  | c :: cs, h, rest, stack, i => by
    have hc := h c (List.mem_cons_self c cs)
    have hstep : scanFrom (c :: (cs ++ rest)) stack false false i
        = scanFrom (cs ++ rest) stack false false (i + 1) := by
      simp [scanFrom, hc.1, hc.2.1, hc.2.2.1, hc.2.2.2.1, hc.2.2.2.2]
    have harith : i + 1 + cs.length = i + (c :: cs).length := by
      simp only [List.length_cons]; omega
    rw [List.cons_append, hstep,
      scanFrom_plain_seg cs (fun x hx => h x (List.mem_cons_of_mem c hx)) rest stack (i + 1),
      harith]

theorem scanFrom_escChar (c : Char) (rest stack : List Char) (i : Nat) :
    scanFrom (escChar c ++ rest) stack true false i
      = scanFrom rest stack true false (i + (escChar c).length) := by
  by_cases hc : c = '"' ∨ c = '\\'
  · have he : escChar c = ['\\', c] := by
      rcases hc with rfl | rfl <;> decide
    rw [he]
    have h1 : scanFrom ('\\' :: c :: rest) stack true false i
        = scanFrom (c :: rest) stack true true (i + 1) := by
      simp [scanFrom]
    have h2 : scanFrom (c :: rest) stack true true (i + 1)
        = scanFrom rest stack true false (i + 1 + 1) := by
      simp [scanFrom]
    rw [List.cons_append, List.cons_append, List.nil_append, h1, h2]
    rfl
  · push_neg at hc
    have he : escChar c = [c] := by
      rw [escChar, if_neg]
      simp [hc.1, hc.2]
    rw [he]
    have h1 : scanFrom (c :: rest) stack true false i
        = scanFrom rest stack true false (i + 1) := by
      simp [scanFrom, hc.1, hc.2]
    rw [List.cons_append, List.nil_append, h1]
    simp

theorem scanFrom_escString :
    ∀ (s rest stack : List Char) (i : Nat),
      scanFrom (escString s ++ rest) stack true false i
        = scanFrom rest stack true false (i + (escString s).length)
  | [], rest, stack, i => by simp [escString]
  | c :: cs, rest, stack, i => by
    have hcons : escString (c :: cs) = escChar c ++ escString cs := rfl
    rw [hcons, List.append_assoc, scanFrom_escChar,
      scanFrom_escString cs rest stack (i + (escChar c).length)]
    congr 1
    simp [List.length_append]
    omega

theorem scanFrom_string (s rest stack : List Char) (i : Nat) :
    scanFrom (serializeString s ++ rest) stack false false i
      = scanFrom rest stack false false (i + (serializeString s).length) := by
  rw [serializeString]
  simp only [List.cons_append, List.append_assoc, List.nil_append]
  have h1 : scanFrom ('"' :: (escString s ++ '"' :: rest)) stack false false i
      = scanFrom (escString s ++ '"' :: rest) stack true false (i + 1) := by
    simp [scanFrom]
  rw [h1, scanFrom_escString]
  have h2 : scanFrom ('"' :: rest) stack true false (i + 1 + (escString s).length)
      = scanFrom rest stack false false (i + 1 + (escString s).length + 1) := by
    simp [scanFrom]
  rw [h2]
  congr 1
  simp [List.length_cons, List.length_append]
  omega

theorem intChars_plain (n : Int) :
    ∀ c ∈ intChars n, ¬(c = '"') ∧ ¬(c = '{') ∧ ¬(c = '[') ∧ ¬(c = '}') ∧ ¬(c = ']') := by
  intro c hc
  rw [intChars] at hc
  split at hc
  · rcases List.mem_cons.mp hc with rfl | h
    · decide
    · exact digit_plain (natChars_digits _ c h)
  · exact digit_plain (natChars_digits _ c hc)

/-! The scan passes through any serialized JSON value while the ambient
stack is nonempty, leaving the state unchanged: brackets inside string
literals are suppressed and escaped quotes do not end the string. -/

mutual

theorem scanVal : ∀ (v : Json) (rest stack : List Char) (i : Nat), stack ≠ [] →
    scanFrom (serialize v ++ rest) stack false false i
      = scanFrom rest stack false false (i + (serialize v).length)
  | .jnull, rest, stack, i, _ => scanFrom_plain_seg _ (by decide) rest stack i
  | .jbool true, rest, stack, i, _ => scanFrom_plain_seg _ (by decide) rest stack i
  | .jbool false, rest, stack, i, _ => scanFrom_plain_seg _ (by decide) rest stack i
  | .jnum n, rest, stack, i, _ => scanFrom_plain_seg _ (intChars_plain n) rest stack i
  | .jstr s, rest, stack, i, _ => scanFrom_string s rest stack i
  | .jarr xs, rest, stack, i, hs => by
      have hser : serialize (Json.jarr xs) = '[' :: (serializeArr xs ++ [']']) := rfl
      rw [hser]
      simp only [List.cons_append, List.append_assoc, List.nil_append]
      have h1 : scanFrom ('[' :: (serializeArr xs ++ ']' :: rest)) stack false false i
          = scanFrom (serializeArr xs ++ ']' :: rest) (']' :: stack) false false (i + 1) := by
        simp [scanFrom]
      rw [h1, scanArr xs (']' :: rest) (']' :: stack) (i + 1) (by simp)]
      have h2 : scanFrom (']' :: rest) (']' :: stack) false false
            (i + 1 + (serializeArr xs).length)
          = scanFrom rest stack false false (i + 1 + (serializeArr xs).length + 1) := by
        simp [scanFrom, hs]
      rw [h2]
      congr 1
      simp [List.length_cons, List.length_append]
      omega
  | .jobj fs, rest, stack, i, hs => by
      have hser : serialize (Json.jobj fs) = '{' :: (serializeObj fs ++ ['}']) := rfl
      rw [hser]
      simp only [List.cons_append, List.append_assoc, List.nil_append]
      have h1 : scanFrom ('{' :: (serializeObj fs ++ '}' :: rest)) stack false false i
          = scanFrom (serializeObj fs ++ '}' :: rest) ('}' :: stack) false false (i + 1) := by
        simp [scanFrom]
      rw [h1, scanObj fs ('}' :: rest) ('}' :: stack) (i + 1) (by simp)]
      have h2 : scanFrom ('}' :: rest) ('}' :: stack) false false
            (i + 1 + (serializeObj fs).length)
          = scanFrom rest stack false false (i + 1 + (serializeObj fs).length + 1) := by
        simp [scanFrom, hs]
      rw [h2]
      congr 1
      simp [List.length_cons, List.length_append]
      omega

theorem scanArr : ∀ (xs : JsonArr) (rest stack : List Char) (i : Nat), stack ≠ [] →
    scanFrom (serializeArr xs ++ rest) stack false false i
      = scanFrom rest stack false false (i + (serializeArr xs).length)
  | .anil, rest, stack, i, _ => by simp [serializeArr]
  | .acons x .anil, rest, stack, i, hs => scanVal x rest stack i hs
  | .acons x (.acons y rest'), rest, stack, i, hs => by
      have hser : serializeArr (.acons x (.acons y rest'))
          = serialize x ++ ',' :: serializeArr (.acons y rest') := rfl
      rw [hser]
      simp only [List.cons_append, List.append_assoc]
      rw [scanVal x _ stack i hs]
      have h1 : scanFrom (',' :: (serializeArr (.acons y rest') ++ rest)) stack false false
            (i + (serialize x).length)
          = scanFrom (serializeArr (.acons y rest') ++ rest) stack false false
              (i + (serialize x).length + 1) := by
        simp [scanFrom]
      rw [h1, scanArr (.acons y rest') rest stack _ hs]
      congr 1
      simp [List.length_cons, List.length_append]
      omega

theorem scanObj : ∀ (fs : JsonObj) (rest stack : List Char) (i : Nat), stack ≠ [] →
    scanFrom (serializeObj fs ++ rest) stack false false i
      = scanFrom rest stack false false (i + (serializeObj fs).length)
  | .onil, rest, stack, i, _ => by simp [serializeObj]
  | .ocons k v .onil, rest, stack, i, hs => by
      have hser : serializeObj (.ocons k v .onil)
          = serializeString k ++ ':' :: serialize v := rfl
      rw [hser]
      simp only [List.cons_append, List.append_assoc]
      rw [scanFrom_string]
      have h1 : scanFrom (':' :: (serialize v ++ rest)) stack false false
            (i + (serializeString k).length)
          = scanFrom (serialize v ++ rest) stack false false
              (i + (serializeString k).length + 1) := by
        simp [scanFrom]
      rw [h1, scanVal v rest stack _ hs]
      congr 1
      simp [List.length_cons, List.length_append]
      omega
  | .ocons k v (.ocons k2 v2 rest'), rest, stack, i, hs => by
      have hser : serializeObj (.ocons k v (.ocons k2 v2 rest'))
          = serializeString k ++ ':' :: serialize v
              ++ ',' :: serializeObj (.ocons k2 v2 rest') := rfl
      rw [hser]
      simp only [List.cons_append, List.append_assoc]
      rw [scanFrom_string]
      have h1 : scanFrom (':' :: (serialize v ++ (',' :: (serializeObj (.ocons k2 v2 rest')
              ++ rest)))) stack false false (i + (serializeString k).length)
          = scanFrom (serialize v ++ (',' :: (serializeObj (.ocons k2 v2 rest') ++ rest)))
              stack false false (i + (serializeString k).length + 1) := by
        simp [scanFrom]
      rw [h1, scanVal v _ stack _ hs]
      have h2 : scanFrom (',' :: (serializeObj (.ocons k2 v2 rest') ++ rest)) stack false false
            (i + (serializeString k).length + 1 + (serialize v).length)
          = scanFrom (serializeObj (.ocons k2 v2 rest') ++ rest) stack false false
              (i + (serializeString k).length + 1 + (serialize v).length + 1) := by
        simp [scanFrom]
      rw [h2, scanObj (.ocons k2 v2 rest') rest stack _ hs]
      congr 1
      simp [List.length_cons, List.length_append]
      omega

end

/-- At the top level (empty stack) the scan of a serialized container
returns exactly at its final closing bracket. -/
theorem scanTop (v : Json) (hv : isContainer v = true) (rest : List Char) (i : Nat) :
    scanFrom (serialize v ++ rest) [] false false i
      = some (i + (serialize v).length - 1) := by
  cases v with
  | jarr xs =>
    have hser : serialize (Json.jarr xs) = '[' :: (serializeArr xs ++ [']']) := rfl
    rw [hser]
    simp only [List.cons_append, List.append_assoc, List.nil_append]
    have h1 : scanFrom ('[' :: (serializeArr xs ++ ']' :: rest)) [] false false i
        = scanFrom (serializeArr xs ++ ']' :: rest) [']'] false false (i + 1) := by
      simp [scanFrom]
    rw [h1, scanArr xs (']' :: rest) [']'] (i + 1) (by simp)]
    have h2 : scanFrom (']' :: rest) [']'] false false (i + 1 + (serializeArr xs).length)
        = some (i + 1 + (serializeArr xs).length) := by
      simp [scanFrom]
    rw [h2]
    congr 1
    simp [List.length_cons, List.length_append]
    omega
  | jobj fs =>
    have hser : serialize (Json.jobj fs) = '{' :: (serializeObj fs ++ ['}']) := rfl
    rw [hser]
    simp only [List.cons_append, List.append_assoc, List.nil_append]
    have h1 : scanFrom ('{' :: (serializeObj fs ++ '}' :: rest)) [] false false i
        = scanFrom (serializeObj fs ++ '}' :: rest) ['}'] false false (i + 1) := by
      simp [scanFrom]
    rw [h1, scanObj fs ('}' :: rest) ['}'] (i + 1) (by simp)]
    have h2 : scanFrom ('}' :: rest) ['}'] false false (i + 1 + (serializeObj fs).length)
        = some (i + 1 + (serializeObj fs).length) := by
      simp [scanFrom]
    rw [h2]
    congr 1
    simp [List.length_cons, List.length_append]
    omega
  | jnull => simp [isContainer] at hv
  | jbool b => simp [isContainer] at hv
  | jnum n => simp [isContainer] at hv
  | jstr s => simp [isContainer] at hv

theorem findStart_lead :
    ∀ (pre : List Char), (∀ c ∈ pre, ¬(c = '{') ∧ ¬(c = '[')) →
      ∀ (c : Char), (c = '{' ∨ c = '[') → ∀ (rest : List Char),
        findStart (pre ++ c :: rest) = some pre.length
  | [], _, c, hc, rest => by simp [findStart, hc]
  | p :: pre', h, c, hc, rest => by
    have hp := h p (List.mem_cons_self p pre')
    rw [List.cons_append, findStart, if_neg (by tauto),
      findStart_lead pre' (fun x hx => h x (List.mem_cons_of_mem p hx)) c hc rest]
    simp

theorem serialize_container_head (v : Json) (hv : isContainer v = true) :
    ∃ b tail, serialize v = b :: tail ∧ (b = '{' ∨ b = '[') := by
  cases v with
  | jarr xs => exact ⟨'[', serializeArr xs ++ [']'], rfl, Or.inr rfl⟩
  | jobj fs => exact ⟨'{', serializeObj fs ++ ['}'], rfl, Or.inl rfl⟩
  | jnull => simp [isContainer] at hv
  | jbool b => simp [isContainer] at hv
  | jnum n => simp [isContainer] at hv
  | jstr s => simp [isContainer] at hv

/-- **C8.** For any top-level JSON container value `v` — in particular one
whose string literals hold `{`, `}`, `[`, `]` and (escaped) quote
characters, since the strings of `v` are arbitrary — embedded after any
prefix containing no opening bracket, `_find_span` is unaffected by those
characters: it returns exactly the span of the whole serialized value
(the scan suppresses bracket recognition inside quoted strings and tracks
backslash escapes), and the corresponding slice is exactly `serialize v`. -/
theorem find_span_covers_whole_value (v : Json) (hv : isContainer v = true)
    (pre suf : List Char) (hpre : ∀ c ∈ pre, ¬(c = '{') ∧ ¬(c = '[')) :
    findSpan (pre ++ serialize v ++ suf)
      = .ok (pre.length, pre.length + (serialize v).length - 1)
    ∧ pySlice (pre ++ serialize v ++ suf) pre.length
        (pre.length + (serialize v).length) = serialize v := by
  rcases serialize_container_head v hv with ⟨b, tail, hser, hb⟩
  have hstart : findStart (pre ++ (serialize v ++ suf)) = some pre.length := by
    rw [hser, List.cons_append]
    exact findStart_lead pre hpre b hb (tail ++ suf)
  have hdrop : (pre ++ (serialize v ++ suf)).drop pre.length = serialize v ++ suf :=
    List.drop_left pre (serialize v ++ suf)
  have hscan : scanFrom ((pre ++ (serialize v ++ suf)).drop pre.length) [] false false
      pre.length = some (pre.length + (serialize v).length - 1) := by
    rw [hdrop, scanTop v hv suf pre.length]
  constructor
  · rw [List.append_assoc]
    simp only [findSpan, hstart, hscan]
  · rw [List.append_assoc, pySlice, hdrop]
    have harith : pre.length + (serialize v).length - pre.length
        = (serialize v).length := by omega
    rw [harith, List.take_left]

/-- Witness for `find_span_covers_whole_value`: an object whose single
field holds a string containing `{`, `[`, `]`, `}` and an escaped quote,
surrounded by bracket-free prose. -/
theorem find_span_covers_whole_value_witness :
    isContainer (Json.jobj (.ocons ['k'] (Json.jstr ['{', '[', '"', ']', '}']) .onil)) = true
    ∧ (∀ c ∈ "the value: ".toList, ¬(c = '{') ∧ ¬(c = '['))
    ∧ findSpan ("the value: ".toList
          ++ serialize (Json.jobj (.ocons ['k'] (Json.jstr ['{', '[', '"', ']', '}']) .onil))
          ++ " done".toList)
        = .ok (("the value: ".toList).length,
            ("the value: ".toList).length
              + (serialize (Json.jobj (.ocons ['k']
                  (Json.jstr ['{', '[', '"', ']', '}']) .onil))).length - 1)
    ∧ pySlice ("the value: ".toList
          ++ serialize (Json.jobj (.ocons ['k'] (Json.jstr ['{', '[', '"', ']', '}']) .onil))
          ++ " done".toList)
        (("the value: ".toList).length)
        (("the value: ".toList).length
          + (serialize (Json.jobj (.ocons ['k']
              (Json.jstr ['{', '[', '"', ']', '}']) .onil))).length)
        = serialize (Json.jobj (.ocons ['k'] (Json.jstr ['{', '[', '"', ']', '}']) .onil)) :=
  ⟨rfl, by decide,
    (find_span_covers_whole_value
      (Json.jobj (.ocons ['k'] (Json.jstr ['{', '[', '"', ']', '}']) .onil)) rfl
      ("the value: ".toList) (" done".toList) (by decide)).1,
    (find_span_covers_whole_value
      (Json.jobj (.ocons ['k'] (Json.jstr ['{', '[', '"', ']', '}']) .onil)) rfl
      ("the value: ".toList) (" done".toList) (by decide)).2⟩

/-! ### C1: the extractor returns the whole enclosing value -/

theorem extract_prose (v : Json) (hv : isContainer v = true) (pre suf : List Char)
    (hpre : ∀ c ∈ pre, ¬(c = '{') ∧ ¬(c = '['))
    (hfence : hasFence (pre ++ serialize v ++ suf) = false)
    (hstrip : pyStrip (pre ++ serialize v ++ suf) = pre ++ serialize v ++ suf) :
    extractJsonFromText (pre ++ serialize v ++ suf)
      = .ok [serialize v, pre ++ serialize v ++ suf] := by
  have hspan := find_span_covers_whole_value v hv pre suf hpre
  rcases serialize_container_head v hv with ⟨b, tail, hser, _⟩
  have hne : ¬(pre ++ serialize v ++ suf = []) := by simp [hser]
  have hlen1 : 1 ≤ (serialize v).length := by rw [hser]; simp
  have harith : pre.length + (serialize v).length - 1 + 1
      = pre.length + (serialize v).length := by omega
  simp only [extractJsonFromText, hstrip]
  rw [if_neg hne]
  simp only [hfence, Bool.false_eq_true, if_false, hspan.1]
  rw [harith, hspan.2]

theorem hasFence_append_triple :
    ∀ (p r : List Char),
      hasFence (p ++ fenceChar :: fenceChar :: fenceChar :: r) = true := by
  intro p
  induction p with
  | nil => intro r; simp [hasFence, startsWithFence]
  | cons c p' ih => intro r; simp [hasFence, ih r]

theorem splitFence_lead :
    ∀ (m : List Char), (∀ c ∈ m, ¬(c = fenceChar)) →
      ∀ r, splitFence (m ++ fenceChar :: fenceChar :: fenceChar :: r)
        = m :: splitFence r := by
  intro m
  induction m with
  | nil => intro _ r; simp [splitFence]
  | cons c m' ih =>
    intro h r
    have hc : ¬(c = fenceChar) := h c (List.mem_cons_self c m')
    have hrec := ih (fun x hx => h x (List.mem_cons_of_mem c hx)) r
    rcases m' with _ | ⟨d, m''⟩
    · simp only [List.nil_append] at hrec
      simp [splitFence, hc, hrec]
    · rcases m'' with _ | ⟨e, m'''⟩
      · simp only [List.cons_append, List.nil_append] at hrec
        simp [splitFence, hc, hrec]
      · simp only [List.cons_append] at hrec
        simp [splitFence, hc, hrec]

theorem splitFence_noFence :
    ∀ (m : List Char), (∀ c ∈ m, ¬(c = fenceChar)) → splitFence m = [m] := by
  intro m
  induction m with
  | nil => intro _; simp [splitFence]
  | cons c m' ih =>
    intro h
    have hc : ¬(c = fenceChar) := h c (List.mem_cons_self c m')
    have hrec := ih fun x hx => h x (List.mem_cons_of_mem c hx)
    rcases m' with _ | ⟨d, m''⟩
    · simp [splitFence]
    · rcases m'' with _ | ⟨e, m'''⟩
      · simp [splitFence]
      · simp [splitFence, hc, hrec]

theorem escString_mem :
    ∀ (s : List Char), ∀ c ∈ escString s, c = '\\' ∨ c ∈ s := by
  intro s
  induction s with
  | nil => intro c hc; simp [escString] at hc
  | cons x s' ih =>
    intro c hc
    have hcons : escString (x :: s') = escChar x ++ escString s' := rfl
    rw [hcons] at hc
    rcases List.mem_append.mp hc with h1 | h1
    · rw [escChar] at h1
      split at h1
      · rcases List.mem_cons.mp h1 with rfl | h2
        · exact Or.inl rfl
        · rcases List.mem_singleton.mp h2 with rfl
          exact Or.inr (List.mem_cons_self _ _)
      · rcases List.mem_singleton.mp h1 with rfl
        exact Or.inr (List.mem_cons_self _ _)
    · rcases ih c h1 with h2 | h2
      · exact Or.inl h2
      · exact Or.inr (List.mem_cons_of_mem x h2)

theorem serializeString_noFence {k : List Char} (hk : strOk k = true) :
    ∀ c ∈ serializeString k, ¬(c = fenceChar) := by
  intro c hc
  rw [serializeString] at hc
  rcases List.mem_cons.mp hc with rfl | h1
  · decide
  · rcases List.mem_append.mp h1 with h2 | h2
    · rcases escString_mem k c h2 with rfl | h3
      · decide
      · have := List.all_eq_true.mp hk c h3
        simp only [Bool.and_eq_true, decide_eq_true_eq] at this
        exact this.2
    · rcases List.mem_singleton.mp h2 with rfl
      decide

theorem natChars_noFence (n : Nat) : ∀ c ∈ natChars n, ¬(c = fenceChar) :=
  fun c hc => digit_ne (natChars_digits n c hc) (by decide)

theorem intChars_noFence (n : Int) : ∀ c ∈ intChars n, ¬(c = fenceChar) := by
  intro c hc
  rw [intChars] at hc
  split at hc
  · rcases List.mem_cons.mp hc with rfl | h
    · decide
    · exact natChars_noFence _ c h
  · exact natChars_noFence _ c hc

mutual

theorem serialize_noFence : ∀ (v : Json), jsonOk v = true →
    ∀ c ∈ serialize v, ¬(c = fenceChar)
  | .jnull, _ => by intro c hc; fin_cases hc <;> decide
  | .jbool true, _ => by intro c hc; fin_cases hc <;> decide
  | .jbool false, _ => by intro c hc; fin_cases hc <;> decide
  | .jnum n, _ => intChars_noFence n
  | .jstr s, hok => serializeString_noFence (by simpa [jsonOk] using hok)
  | .jarr xs, hok => by
    intro c hc
    have hser : serialize (Json.jarr xs) = '[' :: (serializeArr xs ++ [']']) := rfl
    rw [hser] at hc
    rcases List.mem_cons.mp hc with rfl | h1
    · decide
    · rcases List.mem_append.mp h1 with h2 | h2
      · exact serializeArr_noFence xs (by simpa [jsonOk] using hok) c h2
      · rcases List.mem_singleton.mp h2 with rfl
        decide
  | .jobj fs, hok => by
    intro c hc
    have hser : serialize (Json.jobj fs) = '{' :: (serializeObj fs ++ ['}']) := rfl
    rw [hser] at hc
    rcases List.mem_cons.mp hc with rfl | h1
    · decide
    · rcases List.mem_append.mp h1 with h2 | h2
      · exact serializeObj_noFence fs (by simpa [jsonOk] using hok) c h2
      · rcases List.mem_singleton.mp h2 with rfl
        decide

theorem serializeArr_noFence : ∀ (xs : JsonArr), jsonOkArr xs = true →
    ∀ c ∈ serializeArr xs, ¬(c = fenceChar)
  | .anil, _ => by intro c hc; simp [serializeArr] at hc
  | .acons x .anil, hok => by
    intro c hc
    have h1 : jsonOk x = true := by
      simp only [jsonOkArr, Bool.and_eq_true] at hok
      exact hok.1
    exact serialize_noFence x h1 c hc
  | .acons x (.acons y rest'), hok => by
    intro c hc
    have hser : serializeArr (.acons x (.acons y rest'))
        = serialize x ++ ',' :: serializeArr (.acons y rest') := rfl
    rw [hser] at hc
    simp only [jsonOkArr, Bool.and_eq_true] at hok
    rcases List.mem_append.mp hc with h1 | h1
    · exact serialize_noFence x hok.1 c h1
    · rcases List.mem_cons.mp h1 with rfl | h2
      · decide
      · exact serializeArr_noFence (.acons y rest')
          (by simp [jsonOkArr, hok.2.1, hok.2.2]) c h2

theorem serializeObj_noFence : ∀ (fs : JsonObj), jsonOkObj fs = true →
    ∀ c ∈ serializeObj fs, ¬(c = fenceChar)
  | .onil, _ => by intro c hc; simp [serializeObj] at hc
  | .ocons k v .onil, hok => by
    intro c hc
    simp only [jsonOkObj, Bool.and_eq_true] at hok
    have hser : serializeObj (.ocons k v .onil)
        = serializeString k ++ ':' :: serialize v := rfl
    rw [hser] at hc
    rcases List.mem_append.mp hc with h1 | h1
    · exact serializeString_noFence hok.1.1 c h1
    · rcases List.mem_cons.mp h1 with rfl | h2
      · decide
      · exact serialize_noFence v hok.1.2 c h2
  | .ocons k v (.ocons k2 v2 rest'), hok => by
    intro c hc
    simp only [jsonOkObj, Bool.and_eq_true] at hok
    have hser : serializeObj (.ocons k v (.ocons k2 v2 rest'))
        = serializeString k ++ ':' :: serialize v
            ++ ',' :: serializeObj (.ocons k2 v2 rest') := rfl
    rw [hser] at hc
    simp only [List.append_assoc, List.cons_append] at hc
    rcases List.mem_append.mp hc with h1 | h1
    · exact serializeString_noFence hok.1.1 c h1
    · rcases List.mem_cons.mp h1 with rfl | h2
      · decide
      · rcases List.mem_append.mp h2 with h3 | h3
        · exact serialize_noFence v hok.1.2 c h3
        · rcases List.mem_cons.mp h3 with rfl | h4
          · decide
          · exact serializeObj_noFence (.ocons k2 v2 rest') (by simp [jsonOkObj, hok.2]) c h4

end

theorem pyStrip_cons_ws {c : Char} (hc : isPySpace c = true) (l : List Char) :
    pyStrip (c :: l) = pyStrip l := by
  rw [pyStrip, pyStrip, List.dropWhile_cons, if_pos hc]

theorem pyStrip_of_ends (a : Char) (mid : List Char) (b : Char)
    (ha : isPySpace a = false) (hb : isPySpace b = false) :
    pyStrip (a :: (mid ++ [b])) = a :: (mid ++ [b]) := by
  rw [pyStrip]
  rw [List.dropWhile_cons, if_neg (by simp [ha])]
  have hrev : (a :: (mid ++ [b])).reverse = b :: (mid.reverse ++ [a]) := by simp
  rw [hrev, List.dropWhile_cons, if_neg (by simp [hb]), ← hrev, List.reverse_reverse]

theorem pyStrip_serialize (v : Json) (hv : isContainer v = true) :
    pyStrip (serialize v) = serialize v := by
  cases v with
  | jarr xs => exact pyStrip_of_ends '[' (serializeArr xs) ']' (by decide) (by decide)
  | jobj fs => exact pyStrip_of_ends '{' (serializeObj fs) '}' (by decide) (by decide)
  | jnull => simp [isContainer] at hv
  | jbool b => simp [isContainer] at hv
  | jnum n => simp [isContainer] at hv
  | jstr s => simp [isContainer] at hv

theorem stripJsonHint_mid (v : Json) (hv : isContainer v = true) :
    stripJsonHint ('j' :: 's' :: 'o' :: 'n' :: '\n' :: serialize v) = serialize v := by
  have hl : pyLStrip ('j' :: 's' :: 'o' :: 'n' :: '\n' :: serialize v)
      = 'j' :: 's' :: 'o' :: 'n' :: '\n' :: serialize v := by
    rw [pyLStrip, List.dropWhile_cons, if_neg (by decide)]
  have htake : ('j' :: 's' :: 'o' :: 'n' :: '\n' :: serialize v).take 4
      = ['j', 's', 'o', 'n'] := rfl
  have hdrop : ('j' :: 's' :: 'o' :: 'n' :: '\n' :: serialize v).drop 4
      = '\n' :: serialize v := rfl
  rw [stripJsonHint, hl, htake, if_pos (by decide), hdrop,
    pyStrip_cons_ws (by decide), pyStrip_serialize v hv]

theorem pyStrip_json_mid (v : Json) (hv : isContainer v = true) :
    pyStrip ('j' :: 's' :: 'o' :: 'n' :: '\n' :: serialize v)
      = 'j' :: 's' :: 'o' :: 'n' :: '\n' :: serialize v := by
  cases v with
  | jarr xs =>
    have hshape : ('j' :: 's' :: 'o' :: 'n' :: '\n' :: serialize (Json.jarr xs))
        = 'j' :: (('s' :: 'o' :: 'n' :: '\n' :: '[' :: serializeArr xs) ++ [']']) := by
      simp [List.cons_append]
      rfl
    rw [hshape, pyStrip_of_ends 'j' _ ']' (by decide) (by decide)]
  | jobj fs =>
    have hshape : ('j' :: 's' :: 'o' :: 'n' :: '\n' :: serialize (Json.jobj fs))
        = 'j' :: (('s' :: 'o' :: 'n' :: '\n' :: '{' :: serializeObj fs) ++ ['}']) := by
      simp [List.cons_append]
      rfl
    rw [hshape, pyStrip_of_ends 'j' _ '}' (by decide) (by decide)]
  | jnull => simp [isContainer] at hv
  | jbool b => simp [isContainer] at hv
  | jnum n => simp [isContainer] at hv
  | jstr s => simp [isContainer] at hv

theorem fenceSelect_mid (v : Json) (hv : isContainer v = true)
    (pre post : List Char) (hpre : ∀ c ∈ pre, ¬(c = fenceChar))
    (hpost : ∀ c ∈ post, ¬(c = fenceChar))
    (hmid : ∀ c ∈ ('j' :: 's' :: 'o' :: 'n' :: '\n' :: serialize v), ¬(c = fenceChar)) :
    fenceSelect (pre ++ fenceChar :: fenceChar :: fenceChar ::
        (('j' :: 's' :: 'o' :: 'n' :: '\n' :: serialize v)
          ++ fenceChar :: fenceChar :: fenceChar :: post))
      = serialize v := by
  have hchunks : splitFence (pre ++ fenceChar :: fenceChar :: fenceChar ::
        (('j' :: 's' :: 'o' :: 'n' :: '\n' :: serialize v)
          ++ fenceChar :: fenceChar :: fenceChar :: post))
      = [pre, 'j' :: 's' :: 'o' :: 'n' :: '\n' :: serialize v, post] := by
    rw [splitFence_lead pre hpre, splitFence_lead _ hmid, splitFence_noFence post hpost]
  rw [fenceSelect, hchunks]
  have hodd : oddIdx [pre, 'j' :: 's' :: 'o' :: 'n' :: '\n' :: serialize v, post]
      = ['j' :: 's' :: 'o' :: 'n' :: '\n' :: serialize v] := rfl
  rw [hodd]
  have hmap : (['j' :: 's' :: 'o' :: 'n' :: '\n' :: serialize v]).map pyStrip
      = ['j' :: 's' :: 'o' :: 'n' :: '\n' :: serialize v] := by
    rw [List.map_cons, List.map_nil, pyStrip_json_mid v hv]
  rw [hmap]
  have hfil : (['j' :: 's' :: 'o' :: 'n' :: '\n' :: serialize v]).filter (· ≠ [])
      = ['j' :: 's' :: 'o' :: 'n' :: '\n' :: serialize v] := by
    simp
  rw [hfil]
  rw [if_pos (by simp)]
  have hsel : selectBest ['j' :: 's' :: 'o' :: 'n' :: '\n' :: serialize v]
      = 'j' :: 's' :: 'o' :: 'n' :: '\n' :: serialize v := rfl
  rw [hsel, stripJsonHint_mid v hv]

theorem extract_fenced (v : Json) (hv : isContainer v = true) (hok : jsonOk v = true)
    (pre post : List Char) (hpre : ∀ c ∈ pre, ¬(c = fenceChar))
    (hpost : ∀ c ∈ post, ¬(c = fenceChar))
    (hstrip : pyStrip (pre ++ fenceChar :: fenceChar :: fenceChar ::
        (('j' :: 's' :: 'o' :: 'n' :: '\n' :: serialize v)
          ++ fenceChar :: fenceChar :: fenceChar :: post))
      = pre ++ fenceChar :: fenceChar :: fenceChar ::
          (('j' :: 's' :: 'o' :: 'n' :: '\n' :: serialize v)
            ++ fenceChar :: fenceChar :: fenceChar :: post)) :
    extractJsonFromText (pre ++ fenceChar :: fenceChar :: fenceChar ::
        (('j' :: 's' :: 'o' :: 'n' :: '\n' :: serialize v)
          ++ fenceChar :: fenceChar :: fenceChar :: post))
      = .ok [serialize v, serialize v] := by
  have hmid : ∀ c ∈ ('j' :: 's' :: 'o' :: 'n' :: '\n' :: serialize v),
      ¬(c = fenceChar) := by
    intro c hc
    rcases List.mem_cons.mp hc with rfl | hc; · decide
    rcases List.mem_cons.mp hc with rfl | hc; · decide
    rcases List.mem_cons.mp hc with rfl | hc; · decide
    rcases List.mem_cons.mp hc with rfl | hc; · decide
    rcases List.mem_cons.mp hc with rfl | hc; · decide
    exact serialize_noFence v hok c hc
  have hne : ¬(pre ++ fenceChar :: fenceChar :: fenceChar ::
      (('j' :: 's' :: 'o' :: 'n' :: '\n' :: serialize v)
        ++ fenceChar :: fenceChar :: fenceChar :: post) = []) := by
    simp
  have hfence := hasFence_append_triple pre
    (('j' :: 's' :: 'o' :: 'n' :: '\n' :: serialize v)
      ++ fenceChar :: fenceChar :: fenceChar :: post)
  have hsel := fenceSelect_mid v hv pre post hpre hpost hmid
  have hspan : findSpan (serialize v)
      = .ok (0, (serialize v).length - 1)
      ∧ pySlice (serialize v) 0 ((serialize v).length) = serialize v := by
    have h := find_span_covers_whole_value v hv [] [] (by simp)
    simpa using h
  have hlen1 : 1 ≤ (serialize v).length := by
    rcases serialize_container_head v hv with ⟨b, tail, hser, _⟩
    rw [hser]; simp
  have harith : (serialize v).length - 1 + 1 = (serialize v).length := by omega
  simp only [extractJsonFromText, hstrip]
  rw [if_neg hne]
  simp only [hfence, if_true, hsel, hspan.1]
  rw [harith, hspan.2]

/-- **C1.** For text containing exactly one structured JSON value — an
object whose first field's value is an array — surrounded by prose and/or
markdown fences, `_extract_json_from_text` hands `json.loads` the
serialization of the **whole enclosing object** (whose first character is
`{`), never the inner array: the balanced-delimiter scan starting at the
first opening bracket ends only when the bracket stack empties, i.e. at
the object's final `}`.  Conjunct 1: prose case (the surrounding text may
contain quotes and closing brackets, but no opening bracket before the
value and no fence).  Conjunct 2: fenced case with a `json` language hint
and prose around the fences. -/
theorem extract_returns_whole_object :
    (∀ (k : List Char) (xs : JsonArr) (fs : JsonObj) (pre suf : List Char),
      jsonOk (Json.jobj (.ocons k (.jarr xs) fs)) = true →
      (∀ c ∈ pre, ¬(c = '{') ∧ ¬(c = '[')) →
      hasFence (pre ++ serialize (Json.jobj (.ocons k (.jarr xs) fs)) ++ suf) = false →
      pyStrip (pre ++ serialize (Json.jobj (.ocons k (.jarr xs) fs)) ++ suf)
        = pre ++ serialize (Json.jobj (.ocons k (.jarr xs) fs)) ++ suf →
      extractJsonFromText (pre ++ serialize (Json.jobj (.ocons k (.jarr xs) fs)) ++ suf)
        = .ok [serialize (Json.jobj (.ocons k (.jarr xs) fs)),
            pre ++ serialize (Json.jobj (.ocons k (.jarr xs) fs)) ++ suf])
    ∧ (∀ (k : List Char) (xs : JsonArr) (fs : JsonObj) (pre post : List Char),
      jsonOk (Json.jobj (.ocons k (.jarr xs) fs)) = true →
      (∀ c ∈ pre, ¬(c = fenceChar)) → (∀ c ∈ post, ¬(c = fenceChar)) →
      pyStrip (pre ++ fenceChar :: fenceChar :: fenceChar ::
          (('j' :: 's' :: 'o' :: 'n' :: '\n'
              :: serialize (Json.jobj (.ocons k (.jarr xs) fs)))
            ++ fenceChar :: fenceChar :: fenceChar :: post))
        = pre ++ fenceChar :: fenceChar :: fenceChar ::
            (('j' :: 's' :: 'o' :: 'n' :: '\n'
                :: serialize (Json.jobj (.ocons k (.jarr xs) fs)))
              ++ fenceChar :: fenceChar :: fenceChar :: post) →
      extractJsonFromText (pre ++ fenceChar :: fenceChar :: fenceChar ::
          (('j' :: 's' :: 'o' :: 'n' :: '\n'
              :: serialize (Json.jobj (.ocons k (.jarr xs) fs)))
            ++ fenceChar :: fenceChar :: fenceChar :: post))
        = .ok [serialize (Json.jobj (.ocons k (.jarr xs) fs)),
            serialize (Json.jobj (.ocons k (.jarr xs) fs))]) := by
  constructor
  · intro k xs fs pre suf _ hpre hfence hstrip
    exact extract_prose (Json.jobj (.ocons k (.jarr xs) fs)) rfl pre suf hpre hfence hstrip
  · intro k xs fs pre post hok hpre hpost hstrip
    exact extract_fenced (Json.jobj (.ocons k (.jarr xs) fs)) rfl hok pre post
      hpre hpost hstrip

/-- Witness for `extract_returns_whole_object` on the object
`{"a":["x"]}` surrounded by prose (conjunct 1) and by a fenced `json`
block (conjunct 2). -/
theorem extract_returns_whole_object_witness :
    jsonOk (Json.jobj (.ocons ['a'] (.jarr (.acons (Json.jstr ['x']) .anil)) .onil)) = true
    ∧ (∀ c ∈ ['p', ' '], ¬(c = '{') ∧ ¬(c = '['))
    ∧ hasFence (['p', ' ']
        ++ serialize (Json.jobj (.ocons ['a'] (.jarr (.acons (Json.jstr ['x']) .anil)) .onil))
        ++ [' ', 'q']) = false
    ∧ pyStrip (['p', ' ']
        ++ serialize (Json.jobj (.ocons ['a'] (.jarr (.acons (Json.jstr ['x']) .anil)) .onil))
        ++ [' ', 'q'])
      = ['p', ' ']
        ++ serialize (Json.jobj (.ocons ['a'] (.jarr (.acons (Json.jstr ['x']) .anil)) .onil))
        ++ [' ', 'q']
    ∧ extractJsonFromText (['p', ' ']
        ++ serialize (Json.jobj (.ocons ['a'] (.jarr (.acons (Json.jstr ['x']) .anil)) .onil))
        ++ [' ', 'q'])
      = .ok [serialize (Json.jobj (.ocons ['a'] (.jarr (.acons (Json.jstr ['x']) .anil)) .onil)),
          ['p', ' ']
            ++ serialize (Json.jobj (.ocons ['a'] (.jarr (.acons (Json.jstr ['x']) .anil)) .onil))
            ++ [' ', 'q']]
    ∧ extractJsonFromText (['p', ' '] ++ fenceChar :: fenceChar :: fenceChar ::
          (('j' :: 's' :: 'o' :: 'n' :: '\n'
              :: serialize (Json.jobj (.ocons ['a']
                  (.jarr (.acons (Json.jstr ['x']) .anil)) .onil)))
            ++ fenceChar :: fenceChar :: fenceChar :: [' ', 'q']))
        = .ok [serialize (Json.jobj (.ocons ['a']
              (.jarr (.acons (Json.jstr ['x']) .anil)) .onil)),
            serialize (Json.jobj (.ocons ['a']
              (.jarr (.acons (Json.jstr ['x']) .anil)) .onil))] :=
  ⟨by decide, by decide, by decide, by decide,
    extract_returns_whole_object.1 ['a'] (.acons (Json.jstr ['x']) .anil) .onil
      ['p', ' '] [' ', 'q'] (by decide) (by decide) (by decide) (by decide),
    extract_returns_whole_object.2 ['a'] (.acons (Json.jstr ['x']) .anil) .onil
      ['p', ' '] [' ', 'q'] (by decide) (by decide) (by decide) (by decide)⟩

end AutoEdit
